import Mathlib

set_option linter.unusedVariables false

/-!
# Verification of the willow-notes outliner core (`src/unnamed/part_000`)

This file shallowly embeds the note-tree editing engine of the repository:
the forest data model, the structural operations (`updateNoteContent`,
`addNewSibling`, `increaseNoteDepth`, `decreaseNoteDepth`, `deleteNote`,
`loadNotes`) and the plain-text codec (`exportToTxt`, `importFromTxt`).

Modelling conventions:
* JavaScript strings are Lean `String`s; character-level work (trim, split,
  search) is done on `String.data : List Char`.
* The impure `generateId` is modelled by an explicit supply: operations that
  create nodes take the fresh id (or a supply function `Nat → String`,
  applied at the number of ids generated so far) as a parameter.
* The mutation-by-reference pattern `findNoteAndParent` + in-place splice is
  modelled by a path type `Loc`: `findLoc` performs exactly the pre-order
  search of `findNoteAndParent`, returning the path to the found node, and
  the mutations are expressed as rebuilding along that path (`mapOwner`,
  `mapNodeAt`), which is the functional rendering of mutating the owning
  array in place.
-/

/-- A note node: `{ id, content, children }` exactly as in the source. -/
inductive Node : Type where
  | mk (id : String) (content : String) (children : List Node)

instance : Inhabited Node := ⟨Node.mk "" "" []⟩

def Node.id : Node → String
  | .mk i _ _ => i

def Node.content : Node → String
  | .mk _ c _ => c

def Node.children : Node → List Node
  | .mk _ _ cs => cs

/-- Replace the `children` field (models `note.children = …` /
`previousSibling.children.push(…)`). -/
def Node.withChildren : Node → List Node → Node
  | .mk i c _, cs => .mk i c cs

/-- Replace the `content` field (models `note.content = …`). -/
def Node.withContent : Node → String → Node
  | .mk i _ cs, c => .mk i c cs

/-- Pre-order list of every id in a forest. -/
def idsOf : List Node → List String
  | [] => []
  | .mk i _ cs :: rest => i :: (idsOf cs ++ idsOf rest)

/-! ## String helpers

The character-level behaviour of the JavaScript built-ins used by the
source (`String.prototype.trim`, `String.prototype.split('\n')`,
`String.prototype.search(/[^\t]/)`), modelled on `List Char`. -/

/-- The whitespace class trimmed by JavaScript `trim` (ASCII whitespace
plus NBSP — the characters relevant to this code base). -/
def isJsWs (c : Char) : Bool :=
  c == ' ' || c == '\t' || c == '\n' || c == '\r' || c == '\x0B' || c == '\x0C' || c == ' '

/-- `s.trim()` on a character list: drop whitespace at both ends. -/
def trimL (l : List Char) : List Char :=
  ((l.dropWhile isJsWs).reverse.dropWhile isJsWs).reverse

/-- `s.trim()` on a `String`. -/
def jsTrim (s : String) : String := String.mk (trimL s.data)

/-- `txt.split('\n')`. -/
def splitNl : List Char → List (List Char)
  | [] => [[]]
  | c :: rest =>
    if c = '\n' then [] :: splitNl rest
    else
      match splitNl rest with
      | l :: ls => (c :: l) :: ls
      | [] => [[c]]

/-- `line.search(/[^\t]/)` as an optional index: position of the first
character that is not a tab. -/
def idxOfNonTab : List Char → Option Nat
  | [] => none
  | c :: rest => if c = '\t' then (idxOfNonTab rest).map (· + 1) else some 0

/-- `line.search(/[^\t]/)`: `-1` when every character is a tab. -/
def searchNonTab (l : List Char) : Int :=
  match idxOfNonTab l with
  | some n => (n : Int)
  | none => -1

/-! ## Tree store: `findNoteAndParent` as a path

`findNoteAndParent` walks the forest in pre-order (check a node's id, then
its children, then the following siblings) and returns the node together
with the array that holds it.  `Loc` is the path to that position:
`here i` says "index `i` of the current sequence", `child j sub` says
"inside the children of the node at index `j`". -/

inductive Loc : Type where
  | here (i : Nat)
  | child (j : Nat) (sub : Loc)
deriving Repr, DecidableEq

/-- Shift the top-level index of a path by one (used when the pre-order
search moves past the head of a sequence). -/
def Loc.shift : Loc → Loc
  | .here i => .here (i + 1)
  | .child j s => .child (j + 1) s

/-- The pre-order search of `findNoteAndParent`, returning the path of the
first node whose id matches. -/
def findLoc (id : String) : List Node → Option Loc
  | [] => none
  | .mk i _ cs :: rest =>
    if i = id then some (.here 0)
    else
      match findLoc id cs with
      | some sub => some (.child 0 sub)
      | none =>
        match findLoc id rest with
        | some l => some l.shift
        | none => none

/-- The sequence (`parentArray`) designated by a path. -/
def ownerSeq : List Node → Loc → List Node
  | F, .here _ => F
  | F, .child j sub => ownerSeq ((F.getD j default).children) sub

/-- The index of the located node inside its owning sequence. -/
def locIdx : Loc → Nat
  | .here i => i
  | .child _ s => locIdx s

/-- The depth of the located node (number of `child` steps; roots have
depth 0). -/
def locDepth : Loc → Nat
  | .here _ => 0
  | .child _ s => locDepth s + 1

/-- The node designated by a path. -/
def nodeAt (F : List Node) (loc : Loc) : Node :=
  (ownerSeq F loc).getD (locIdx loc) default

/-- A path actually points inside the forest. -/
def locValid : List Node → Loc → Prop
  | F, .here i => i < F.length
  | F, .child j sub => j < F.length ∧ locValid (F.getD j default).children sub

/-- Rebuild the forest after replacing the owning sequence at a path —
the functional rendering of mutating `parentArray` in place. -/
def mapOwner (f : List Node → List Node) : List Node → Loc → List Node
  | F, .here _ => f F
  | F, .child j sub =>
      F.set j ((F.getD j default).withChildren (mapOwner f (F.getD j default).children sub))

/-- Rebuild the forest after replacing the node at a path — the functional
rendering of mutating the found `note` object in place. -/
def mapNodeAt (g : Node → Node) : List Node → Loc → List Node
  | F, .here i => F.set i (g (F.getD i default))
  | F, .child j sub =>
      F.set j ((F.getD j default).withChildren (mapNodeAt g (F.getD j default).children sub))

/-- `parentArray.findIndex(n => n.id === noteId)`. -/
def findIdxId (id : String) (s : List Node) : Option Nat :=
  s.findIdx? (fun n => n.id = id)

/-- `seq.splice(i, 0, a)`: insert at index `i` (appends when `i` is past
the end, as `splice` does). -/
def insertAt (i : Nat) (a : Node) (s : List Node) : List Node :=
  s.take i ++ a :: s.drop i

/-! ## Structural operations -/

/-- `updateNoteContent(id, content)`: `noteObj.content = content.trim()`,
no-op when the id is absent. -/
def updateNoteContent (id content : String) (F : List Node) : List Node :=
  match findLoc id F with
  | none => F
  | some loc => mapNodeAt (fun n => n.withContent (jsTrim content)) F loc

/-- `addNewSibling(noteId)`: insert a fresh empty node right after the
found node in its owning sequence. -/
def addNewSibling (id fresh : String) (F : List Node) : List Node :=
  match findLoc id F with
  | none => F
  | some loc =>
      mapOwner (fun s =>
        match findIdxId id s with
        | none => s
        | some i => insertAt (i + 1) (Node.mk fresh "" []) s) F loc

/-- The owning-sequence part of `increaseNoteDepth`: remove the node at
`index` and push it at the end of the previous sibling's children;
no-op when `index == 0`. -/
def indentSeq (id : String) (s : List Node) : List Node :=
  match findIdxId id s with
  | none => s
  | some i =>
    if 0 < i then
      let note := s.getD i default
      let prev := s.getD (i - 1) default
      s.take (i - 1) ++ (prev.withChildren (prev.children ++ [note])) :: s.drop (i + 1)
    else s

/-- `increaseNoteDepth(noteId)` (indent). -/
def increaseNoteDepth (id : String) (F : List Node) : List Node :=
  match findLoc id F with
  | none => F
  | some loc => mapOwner (indentSeq id) F loc

/-- The owning-sequence part of `deleteNote`'s non-root branch:
`parentArray.splice(index, 1)` followed by
`parentArray.splice(index, 0, ...children)`. -/
def deleteSeq (id : String) (s : List Node) : List Node :=
  match findIdxId id s with
  | none => s
  | some i => s.take i ++ (s.getD i default).children ++ s.drop (i + 1)

/-- `deleteNote(noteId)`: the first root (`parentArray === notesData &&
index === 0`, i.e. path `here 0`) only has its content cleared; any other
node is removed with its children spliced into its place. -/
def deleteNote (id : String) (F : List Node) : List Node :=
  match findLoc id F with
  | none => F
  | some (.here 0) => mapNodeAt (fun n => n.withContent "") F (.here 0)
  | some loc => mapOwner (deleteSeq id) F loc

/-- The non-root part of `decreaseNoteDepth`: walk down the path; at the
level where the owning sequence is the children of `P = F[j]` (the node
the JS identity scan `n.children === parentArray` finds), remove the note
from `P.children`, then re-find `P`'s index by id in the updated container
and insert the note right after it. -/
def outdentGo (id : String) : List Node → Loc → List Node
  | F, .child j (.here _) =>
      let P := F.getD j default
      match findIdxId id P.children with
      | none => F
      | some i =>
        let note := P.children.getD i default
        let P' := P.withChildren (P.children.take i ++ P.children.drop (i + 1))
        let F' := F.set j P'
        match findIdxId P.id F' with
        | some pi => insertAt (pi + 1) note F'
        | none => insertAt 0 note F'
  | F, .child j sub =>
      F.set j ((F.getD j default).withChildren (outdentGo id (F.getD j default).children sub))
  | F, .here _ => F

/-- `decreaseNoteDepth(noteId)` (outdent): a note sitting directly in the
root sequence (`parentArray === notesData`) is deleted; otherwise it is
moved up next to its parent. -/
def decreaseNoteDepth (id : String) (F : List Node) : List Node :=
  match findLoc id F with
  | none => F
  | some (.here _) => deleteNote id F
  | some loc => outdentGo id F loc

/-- The data part of `loadNotes`: use the stored forest (or `[]`), and
synthesize a single empty root when the result is empty. -/
def loadNotes (stored : Option (List Node)) (fresh : String) : List Node :=
  let nd := match stored with | some d => d | none => []
  if nd.length = 0 then [Node.mk fresh "" []] else nd

/-! ## Text codec -/

/-- The `traverse` closure of `exportToTxt`: one line per node —
`depth` tabs, the content, a newline — children first, then the following
siblings. -/
def traverseExport : Nat → List Node → List Char
  | _, [] => []
  | d, .mk _ c cs :: rest =>
      (List.replicate d '\t' ++ c.data ++ ['\n'])
        ++ (if cs.length > 0 then traverseExport (d + 1) cs else [])
        ++ traverseExport d rest

/-- `exportToTxt(notes)`: the concatenated lines with final `trim()`. -/
def exportToTxt (notes : List Node) : String :=
  String.mk (trimL (traverseExport 0 notes))

/-- A parent-stack frame: the recorded depth and the children collected so
far for the owning node, most recent first (JS pushes at the end of the
shared array; the functional model conses and reverses when the frame is
retired). -/
abbrev Frame := Int × List Node

/-- Retiring a frame writes its collected children into the node they
belong to: the most recently appended child of the frame below (that node
was pushed into `parent.children` immediately before its frame). -/
def attachFrame (rc : List Node) : List Node → List Node
  | [] => []
  | p :: ps => p.withChildren rc.reverse :: ps

/-- `while (parentStack.length > 1 && top.depth >= depth) pop()`. -/
def popWhile (d : Int) : List Frame → List Frame
  | (fd, rc) :: (pd, pc) :: rest =>
      if d ≤ fd then popWhile d ((pd, attachFrame rc pc) :: rest)
      else (fd, rc) :: (pd, pc) :: rest
  | s => s
termination_by st => st.length

/-- Flush the stack at end of input.  In JS the arrays are shared so the
tree is already complete; functionally the pending children lists are
written back down to the sentinel frame, whose list is the root sequence. -/
def collapseAll : List Frame → List Node
  | [] => []
  | [(_, rc)] => rc.reverse
  | (_, rc) :: (pd, pc) :: rest => collapseAll ((pd, attachFrame rc pc) :: rest)
termination_by st => st.length

/-- One `lines.forEach` iteration of `importFromTxt`.  The `Nat` counts
`generateId()` calls, so node `k` gets id `gen k`. -/
def importStep (gen : Nat → String) : (List Frame × Nat) → List Char → (List Frame × Nat)
  | (st, k), line =>
    let depth : Int := searchNonTab line
    let content := trimL line
    if content.isEmpty then (st, k)
    else
      let newNote := Node.mk (gen k) (String.mk content) []
      match popWhile depth st with
      | (fd, rc) :: rest => ((depth, []) :: (fd, newNote :: rc) :: rest, k + 1)
      | [] => ([], k + 1)

/-- `importFromTxt(txt)`: split into lines, drop blank lines, rebuild the
forest with the parent stack seeded by the sentinel frame at depth `-1`. -/
def importFromTxt (gen : Nat → String) (txt : String) : List Node :=
  let lines := (splitNl txt.data).filter (fun l => !(trimL l).isEmpty)
  collapseAll (lines.foldl (importStep gen) ([((-1 : Int), ([] : List Node))], 0)).1

/-! ## The operation alphabet (for the global invariant C1) -/

/-- One core operation, with the fresh-id supply made explicit. -/
inductive Op : Type where
  | load (stored : Option (List Node)) (fresh : String)
  | update (id content : String)
  | insertAfter (id fresh : String)
  | indent (id : String)
  | outdent (id : String)
  | delete (id : String)
  | importTxt (gen : Nat → String) (txt : String)

/-- Apply one operation to the forest. -/
def applyOp (F : List Node) : Op → List Node
  | .load st fresh => loadNotes st fresh
  | .update id c => updateNoteContent id c F
  | .insertAfter id fr => addNewSibling id fr F
  | .indent id => increaseNoteDepth id F
  | .outdent id => decreaseNoteDepth id F
  | .delete id => deleteNote id F
  | .importTxt gen txt => importFromTxt gen txt

/-- Apply a sequence of operations, left to right. -/
def applyOps (F : List Node) : List Op → List Node
  | [] => F
  | op :: ops => applyOps (applyOp F op) ops

/-! ## Derived notions used by the specification claims -/

/-- The structure-and-content view of a node with ids erased (the claims
compare forests "node ids excluded"). -/
inductive STree : Type where
  | mk (content : String) (children : List STree)

/-- Erase every id of a forest. -/
def stripIds : List Node → List STree
  | [] => []
  | .mk _ c cs :: rest => STree.mk c (stripIds cs) :: stripIds rest

/-- Number of nodes of a forest (= number of `generateId` calls an import
of its export performs). -/
def countNodes : List Node → Nat
  | [] => 0
  | .mk _ _ cs :: rest => 1 + countNodes cs + countNodes rest

/-- Give every node of the forest a fresh id from the supply, in pre-order
starting at `k` — what a round trip through the codec does to ids. -/
def relabel (gen : Nat → String) : Nat → List Node → List Node
  | _, [] => []
  | k, .mk _ c cs :: rest =>
      Node.mk (gen k) c (relabel gen (k + 1) cs) :: relabel gen (k + 1 + countNodes cs) rest

/-- Forest well-formedness: all ids distinct (§8 "every node id in a
forest is unique"). -/
def WF (F : List Node) : Prop := (idsOf F).Nodup

/-- Depth of the node carrying the given id, `none` when absent. -/
def depthOfId (id : String) (F : List Node) : Option Nat :=
  (findLoc id F).map locDepth

/-- Per-content condition of the (amended) round-trip claim: nonempty,
already trimmed, and free of tabs and newlines. -/
def goodContent (c : List Char) : Bool :=
  !c.isEmpty && trimL c == c && !c.contains '\n' && !c.contains '\t'

/-- Every content of the forest satisfies `goodContent`. -/
def contentOk : List Node → Prop
  | [] => True
  | .mk _ c cs :: rest => goodContent c.data = true ∧ contentOk cs ∧ contentOk rest

/-- Pre-order (depth, content) pairs of a forest — the line skeleton of
its export. -/
def flattenPairs : Nat → List Node → List (Nat × List Char)
  | _, [] => []
  | d, .mk _ c cs :: rest => (d, c.data) :: (flattenPairs (d + 1) cs ++ flattenPairs d rest)

/-- One import step on an already-analysed line (depth and trimmed
content); `importStep` on a non-blank line reduces to this. -/
def stepP (gen : Nat → String) : (List Frame × Nat) → (Int × List Char) → (List Frame × Nat)
  | (st, k), (d, c) =>
      match popWhile d st with
      | (fd, rc) :: rest =>
          ((d, ([] : List Node)) :: (fd, Node.mk (gen k) (String.mk c) [] :: rc) :: rest, k + 1)
      | [] => ([], k + 1)

/-- Run the pair machine and flush the stack. -/
def runP (gen : Nat → String) (st : List Frame) (k : Nat) (ps : List (Int × List Char)) :
    List Node :=
  collapseAll (ps.foldl (stepP gen) (st, k)).1

/-- Modelled from the spec: recursive-descent reading of §4.3 — a line
becomes a child of the node built from the nearest preceding line of
strictly smaller depth.  `parseSeqF gen fuel fd k ps` parses the maximal
prefix of `ps` whose lines have depth strictly greater than `fd` (they all
attach under the current frame), each node taking as children the lines
following it while their depth exceeds its own.  `fuel` only serves
termination; any `fuel > ps.length` is enough. -/
def parseSeqF (gen : Nat → String) :
    Nat → Int → Nat → List (Int × List Char) → List Node × List (Int × List Char) × Nat
  | 0, _, k, ps => ([], ps, k)
  | _ + 1, _, k, [] => ([], [], k)
  | fuel + 1, fd, k, (d, c) :: t =>
    if fd < d then
      match parseSeqF gen fuel d (k + 1) t with
      | (kids, t1, k1) =>
        match parseSeqF gen fuel fd k1 t1 with
        | (sibs, t2, k2) => (Node.mk (gen k) (String.mk c) kids :: sibs, t2, k2)
    else ([], (d, c) :: t, k)

/-- Modelled from the spec: the nearest-smaller-depth reconstruction of
§4.3, applied to the same non-blank lines `importFromTxt` keeps. -/
def buildNSA (gen : Nat → String) (txt : String) : List Node :=
  let lines := (splitNl txt.data).filter (fun l => !(trimL l).isEmpty)
  let ps := lines.map (fun l => (searchNonTab l, trimL l))
  (parseSeqF gen (ps.length + 1) (-1) 0 ps).1

/-- Replace the final index of a path (where a node lands after its owning
sequence was re-shuffled). -/
def setIdx : Loc → Nat → Loc
  | .here _, m => .here m
  | .child j s, m => .child j (setIdx s m)

/-- Extend a path one level down, to child `k` of the located node. -/
def extendLoc : Loc → Nat → Loc
  | .here i, k => .child i (.here k)
  | .child j s, k => .child j (extendLoc s k)

/-- Where a node sits after outdent: the trailing `child j (here i)`
becomes `here (j+1)` — right after its former parent. -/
def outLoc : Loc → Loc
  | .child j (.here _) => .here (j + 1)
  | .child j s => .child j (outLoc s)
  | .here i => .here i

/-- Where a node sits after indent: last child (index `m`) of the sibling
at `i - 1`. -/
def inLoc : Loc → Nat → Loc
  | .here i, m => .child (i - 1) (.here m)
  | .child j s, m => .child j (inLoc s m)

/-- Replace the final `here` component of a path by a whole path `q`
interpreted inside the owning sequence. -/
def replaceTail : Loc → Loc → Loc
  | .here _, q => q
  | .child j s, q => .child j (replaceTail s q)

/-- A path that goes through at least one `child` step — i.e. the located
node is not a root, its owning sequence is some parent's `children`. -/
def isChildLoc : Loc → Prop
  | .here _ => False
  | .child _ _ => True

/-- The path of the parent node `P` whose `children` own the located node
(meaningful on `isChildLoc` paths). -/
def parentLoc : Loc → Loc
  | .child j (.here _) => .here j
  | .child j s => .child j (parentLoc s)
  | .here i => .here i

/-- The shape of the container after an outdent whose owning sequence is
`children` of the container's node at `j`: the node at index `i` of those
children is removed and re-inserted right after `j`. -/
def outdentResultAt (F : List Node) (j i : Nat) : List Node :=
  insertAt (j + 1) ((F.getD j default).children.getD i default)
    (F.set j ((F.getD j default).withChildren
      ((F.getD j default).children.take i ++ (F.getD j default).children.drop (i + 1))))

/-- The guard the amended C1 needs: an import's text must contain at least
one non-blank line (a blank import empties the forest — see the
counterexample). -/
def opOk : Op → Prop
  | .importTxt _ txt => ∃ l ∈ splitNl txt.data, trimL l ≠ []
  | _ => True

/-- Separator-joined lines (no trailing newline). -/
def interNl : List (List Char) → List Char
  | [] => []
  | [l] => l
  | l :: m :: ls => l ++ '\n' :: interNl (m :: ls)

/-! ## Path plumbing -/

theorem locIdx_shift (l : Loc) : locIdx l.shift = match l with
    | .here i => i + 1
    | .child _ _ => locIdx l := by
  cases l <;> simp [Loc.shift, locIdx]

theorem locValid_shift {rest : List Node} {l : Loc} (n : Node) (h : locValid rest l) :
    locValid (n :: rest) l.shift := by
  cases l with
  | here i => simpa [Loc.shift, locValid] using h
  | child j s =>
    obtain ⟨h1, h2⟩ := h
    exact ⟨by simpa using h1, by simpa [List.getD_cons_succ] using h2⟩

theorem nodeAt_shift (n : Node) (rest : List Node) (l : Loc) :
    nodeAt (n :: rest) l.shift = nodeAt rest l := by
  cases l with
  | here i => simp [Loc.shift, nodeAt, ownerSeq, locIdx, List.getD_cons_succ]
  | child j s => simp [Loc.shift, nodeAt, ownerSeq, locIdx, List.getD_cons_succ]

theorem findLoc_valid (id : String) :
    ∀ (F : List Node) (loc : Loc), findLoc id F = some loc → locValid F loc
  | [], loc, h => by simp [findLoc] at h
  | .mk i c cs :: rest, loc, h => by
    rw [findLoc] at h
    by_cases hid : i = id
    · simp only [if_pos hid] at h
      cases h
      simp [locValid]
    · simp only [if_neg hid] at h
      cases hcs : findLoc id cs with
      | some sub =>
        rw [hcs] at h
        cases h
        refine ⟨by simp, ?_⟩
        have ih := findLoc_valid id cs sub hcs
        simpa [List.getD_cons_zero, Node.children] using ih
      | none =>
        rw [hcs] at h
        cases hrest : findLoc id rest with
        | some l => rw [hrest] at h; cases h; exact locValid_shift _ (findLoc_valid id rest l hrest)
        | none => rw [hrest] at h; cases h

theorem findLoc_nodeAt (id : String) :
    ∀ (F : List Node) (loc : Loc), findLoc id F = some loc → (nodeAt F loc).id = id
  | [], loc, h => by simp [findLoc] at h
  | .mk i c cs :: rest, loc, h => by
    rw [findLoc] at h
    by_cases hid : i = id
    · simp only [if_pos hid] at h
      cases h
      simpa [nodeAt, ownerSeq, locIdx, Node.id] using hid
    · simp only [if_neg hid] at h
      cases hcs : findLoc id cs with
      | some sub =>
        rw [hcs] at h
        cases h
        simpa [nodeAt, ownerSeq, locIdx, Node.children] using findLoc_nodeAt id cs sub hcs
      | none =>
        rw [hcs] at h
        cases hrest : findLoc id rest with
        | some l =>
          rw [hrest] at h
          cases h
          rw [nodeAt_shift]
          exact findLoc_nodeAt id rest l hrest
        | none => rw [hrest] at h; cases h

theorem findIdxId_nil (id : String) : findIdxId id [] = none := rfl

theorem findIdxId_cons (id : String) (n : Node) (s : List Node) :
    findIdxId id (n :: s) =
      if n.id = id then some 0 else (findIdxId id s).map (· + 1) := by
  simp only [findIdxId, List.findIdx?_cons]
  split
  · rename_i h
    simp at h
    simp [h]
  · rename_i h
    simp at h
    simp [h, List.findIdx?_succ]

theorem findLoc_findIdx (id : String) :
    ∀ (F : List Node) (loc : Loc), findLoc id F = some loc →
      findIdxId id (ownerSeq F loc) = some (locIdx loc)
  | [], loc, h => by simp [findLoc] at h
  | .mk i c cs :: rest, loc, h => by
    rw [findLoc] at h
    by_cases hid : i = id
    · simp only [if_pos hid] at h
      cases h
      simp [ownerSeq, locIdx, findIdxId_cons, Node.id, hid]
    · simp only [if_neg hid] at h
      cases hcs : findLoc id cs with
      | some sub =>
        rw [hcs] at h
        cases h
        have ih := findLoc_findIdx id cs sub hcs
        simpa [ownerSeq, locIdx, Node.children] using ih
      | none =>
        rw [hcs] at h
        cases hrest : findLoc id rest with
        | some l =>
          rw [hrest] at h
          cases h
          have ih := findLoc_findIdx id rest l hrest
          cases l with
          | here m =>
            simp only [Loc.shift, ownerSeq, locIdx]
            simp only [ownerSeq, locIdx] at ih
            simp [findIdxId_cons, Node.id, hid, ih]
          | child j s =>
            simp only [Loc.shift, ownerSeq, locIdx, List.getD_cons_succ]
            simpa [ownerSeq, locIdx] using ih
        | none => rw [hrest] at h; cases h

/-! ## Membership and uniqueness of ids -/

theorem idsOf_append : ∀ (a b : List Node), idsOf (a ++ b) = idsOf a ++ idsOf b
  | [], b => by simp [idsOf]
  | .mk i c cs :: rest, b => by
    simp [idsOf, idsOf_append rest b]

theorem getD_id_mem : ∀ (F : List Node) (i : Nat), i < F.length → (F.getD i default).id ∈ idsOf F
  | [], i, h => by simp at h
  | .mk x c cs :: rest, 0, h => by simp [idsOf, Node.id]
  | .mk x c cs :: rest, i + 1, h => by
    have := getD_id_mem rest i (by simpa using h)
    simp only [List.getD_cons_succ, idsOf, List.mem_cons, List.mem_append]
    tauto

theorem mem_idsOf_children :
    ∀ (F : List Node) (j : Nat), j < F.length →
      ∀ x, x ∈ idsOf (F.getD j default).children → x ∈ idsOf F
  | [], j, h, x, hx => by simp at h
  | .mk i c cs :: rest, 0, h, x, hx => by
    simp only [List.getD_cons_zero, Node.children] at hx
    simp only [idsOf, List.mem_cons, List.mem_append]
    tauto
  | .mk i c cs :: rest, j + 1, h, x, hx => by
    have := mem_idsOf_children rest j (by simpa using h) x (by simpa using hx)
    simp only [idsOf, List.mem_cons, List.mem_append]
    tauto

theorem nodeAt_id_mem :
    ∀ (F : List Node) (loc : Loc), locValid F loc → (nodeAt F loc).id ∈ idsOf F := by
  intro F loc
  induction loc generalizing F with
  | here i => intro h; exact getD_id_mem F i h
  | child j sub ih =>
    intro h
    obtain ⟨h1, h2⟩ := h
    exact mem_idsOf_children F j h1 _ (ih _ h2)

theorem findLoc_mem_ids {id : String} {F : List Node} {loc : Loc}
    (h : findLoc id F = some loc) : id ∈ idsOf F := by
  have hv := findLoc_valid id F loc h
  have hn := findLoc_nodeAt id F loc h
  rw [← hn]
  exact nodeAt_id_mem F loc hv

theorem findLoc_eq_none {id : String} {F : List Node} (h : id ∉ idsOf F) :
    findLoc id F = none := by
  cases hf : findLoc id F with
  | none => rfl
  | some loc => exact absurd (findLoc_mem_ids hf) h

/-- In a well-formed forest, the valid path of a node carrying `id` is
exactly the path `findNoteAndParent` finds. -/
theorem findLoc_of_WF {id : String} :
    ∀ (F : List Node) (loc : Loc), WF F → locValid F loc → (nodeAt F loc).id = id →
      findLoc id F = some loc
  | [], .here i, _, hv, _ => by simp [locValid] at hv
  | [], .child j s, _, hv, _ => by simp [locValid] at hv
  | .mk i c cs :: rest, loc, hwf, hv, hid => by
    have hwf' : i ∉ (idsOf cs ++ idsOf rest) ∧ (idsOf cs ++ idsOf rest).Nodup := by
      simpa [WF, idsOf, List.nodup_cons] using hwf
    have hcsnd : (idsOf cs).Nodup := (List.nodup_append.mp hwf'.2).1
    have hrestnd : (idsOf rest).Nodup := (List.nodup_append.mp hwf'.2).2.1
    have hdisj : ∀ x ∈ idsOf cs, x ∉ idsOf rest := by
      have := (List.nodup_append.mp hwf'.2).2.2
      intro x hx
      exact this hx
    match loc with
    | .here 0 =>
      have : i = id := by simpa [nodeAt, ownerSeq, locIdx, Node.id] using hid
      simp [findLoc, this]
    | .here (m + 1) =>
      have hm : m < rest.length := by simpa [locValid] using hv
      have hidm : (nodeAt rest (.here m)).id = id := by
        have := nodeAt_shift (Node.mk i c cs) rest (.here m)
        simp only [Loc.shift] at this
        rw [← this]
        exact hid
      have hmem : id ∈ idsOf rest := hidm ▸ nodeAt_id_mem rest (.here m) hm
      have hne : ¬ i = id := fun he => hwf'.1 (he ▸ List.mem_append_right _ hmem)
      have hcs : findLoc id cs = none :=
        findLoc_eq_none (fun hc => hdisj id hc hmem)
      have hrest : findLoc id rest = some (.here m) :=
        findLoc_of_WF rest (.here m) hrestnd hm hidm
      rw [findLoc, if_neg hne, hcs, hrest]
      rfl
    | .child 0 sub =>
      have hsubv : locValid cs sub := by
        have := hv.2
        simpa [List.getD_cons_zero, Node.children] using this
      have hids : (nodeAt cs sub).id = id := by
        simpa [nodeAt, ownerSeq, Node.children] using hid
      have hmem : id ∈ idsOf cs := hids ▸ nodeAt_id_mem cs sub hsubv
      have hne : ¬ i = id := fun he => hwf'.1 (he ▸ List.mem_append_left _ hmem)
      have hcs : findLoc id cs = some sub := findLoc_of_WF cs sub hcsnd hsubv hids
      rw [findLoc, if_neg hne, hcs]
    | .child (j + 1) sub =>
      have hsubv : locValid rest (.child j sub) := by
        refine ⟨by simpa [locValid] using hv.1, ?_⟩
        have := hv.2
        simpa [List.getD_cons_succ] using this
      have hids : (nodeAt rest (.child j sub)).id = id := by
        have := nodeAt_shift (Node.mk i c cs) rest (.child j sub)
        simp only [Loc.shift] at this
        rw [← this]
        exact hid
      have hmem : id ∈ idsOf rest := hids ▸ nodeAt_id_mem rest (.child j sub) hsubv
      have hne : ¬ i = id := fun he => hwf'.1 (he ▸ List.mem_append_right _ hmem)
      have hcs : findLoc id cs = none :=
        findLoc_eq_none (fun hc => hdisj id hc hmem)
      have hrest : findLoc id rest = some (.child j sub) :=
        findLoc_of_WF rest (.child j sub) hrestnd hsubv hids
      rw [findLoc, if_neg hne, hcs, hrest]
      rfl

/-! ## Node and list helper lemmas -/

theorem Node.children_withChildren (n : Node) (cs : List Node) :
    (n.withChildren cs).children = cs := by
  cases n; simp [Node.withChildren, Node.children]

theorem Node.id_withChildren (n : Node) (cs : List Node) :
    (n.withChildren cs).id = n.id := by
  cases n; simp [Node.withChildren, Node.id]

theorem Node.content_withChildren (n : Node) (cs : List Node) :
    (n.withChildren cs).content = n.content := by
  cases n; simp [Node.withChildren, Node.content]

theorem Node.withChildren_self (n : Node) : n.withChildren n.children = n := by
  cases n; simp [Node.withChildren, Node.children]

theorem Node.id_withContent (n : Node) (c : String) : (n.withContent c).id = n.id := by
  cases n; simp [Node.withContent, Node.id]

theorem Node.children_withContent (n : Node) (c : String) :
    (n.withContent c).children = n.children := by
  cases n; simp [Node.withContent, Node.children]

theorem Node.content_withContent (n : Node) (c : String) :
    (n.withContent c).content = c := by
  cases n; simp [Node.withContent, Node.content]

theorem getD_set_self {l : List Node} {i : Nat} {x d : Node} (h : i < l.length) :
    (l.set i x).getD i d = x := by
  simp [List.getD_eq_getElem?_getD, List.getElem?_set_self h]

theorem getD_set_ne {l : List Node} {i j : Nat} {x d : Node} (h : i ≠ j) :
    (l.set i x).getD j d = l.getD j d := by
  simp [List.getD_eq_getElem?_getD, List.getElem?_set_ne h]

theorem set_getD_self {l : List Node} {j : Nat} {d : Node} (h : j < l.length) :
    l.set j (l.getD j d) = l := by
  apply List.ext_getElem?
  intro m
  by_cases hm : m = j
  · subst hm
    simp [List.getElem?_set_self h, List.getD_eq_getElem?_getD, List.getElem?_eq_getElem h]
  · exact List.getElem?_set_ne (fun hh => hm hh.symm)

/-- `idsOf` unfolded on an abstract head. -/
theorem idsOf_cons (n : Node) (rest : List Node) :
    idsOf (n :: rest) = n.id :: (idsOf n.children ++ idsOf rest) := by
  cases n; simp [idsOf, Node.id, Node.children]

/-! ## `mapOwner` and `mapNodeAt` structure lemmas -/

theorem ownerSeq_mapOwner (f : List Node → List Node) :
    ∀ (F : List Node) (loc : Loc), locValid F loc →
      ownerSeq (mapOwner f F loc) loc = f (ownerSeq F loc) := by
  intro F loc
  induction loc generalizing F with
  | here i => intro h; simp [mapOwner, ownerSeq]
  | child j sub ih =>
    intro h
    obtain ⟨h1, h2⟩ := h
    simp only [mapOwner, ownerSeq, getD_set_self h1, Node.children_withChildren]
    exact ih _ h2

theorem mapOwner_eq_self (f : List Node → List Node) :
    ∀ (F : List Node) (loc : Loc), locValid F loc →
      f (ownerSeq F loc) = ownerSeq F loc → mapOwner f F loc = F := by
  intro F loc
  induction loc generalizing F with
  | here i => intro h hf; simpa [mapOwner, ownerSeq] using hf
  | child j sub ih =>
    intro h hf
    obtain ⟨h1, h2⟩ := h
    have := ih _ h2 (by simpa [ownerSeq] using hf)
    simp only [mapOwner, this, Node.withChildren_self]
    exact set_getD_self h1

/-- Any path sharing the spine of `loc` (differing only in the final
index) designates the same owning sequence. -/
theorem ownerSeq_setIdx (F : List Node) : ∀ (loc : Loc) (m : Nat),
    ownerSeq F (setIdx loc m) = ownerSeq F loc := by
  intro loc
  induction loc generalizing F with
  | here i => intro m; simp [setIdx, ownerSeq]
  | child j sub ih => intro m; simp [setIdx, ownerSeq, ih]

theorem locIdx_setIdx : ∀ (loc : Loc) (m : Nat), locIdx (setIdx loc m) = m := by
  intro loc
  induction loc with
  | here i => intro m; simp [setIdx, locIdx]
  | child j sub ih => intro m; simp [setIdx, locIdx, ih]

theorem locDepth_setIdx : ∀ (loc : Loc) (m : Nat), locDepth (setIdx loc m) = locDepth loc := by
  intro loc
  induction loc with
  | here i => intro m; simp [setIdx, locDepth]
  | child j sub ih => intro m; simp [setIdx, locDepth, ih]

theorem locDepth_extendLoc : ∀ (loc : Loc) (k : Nat),
    locDepth (extendLoc loc k) = locDepth loc + 1 := by
  intro loc
  induction loc with
  | here i => intro k; simp [extendLoc, locDepth]
  | child j sub ih => intro k; simp [extendLoc, locDepth, ih]

theorem locIdx_extendLoc : ∀ (loc : Loc) (k : Nat), locIdx (extendLoc loc k) = k := by
  intro loc
  induction loc with
  | here i => intro k; simp [extendLoc, locIdx]
  | child j sub ih => intro k; simp [extendLoc, locIdx, ih]

theorem ownerSeq_extendLoc (F : List Node) : ∀ (loc : Loc) (k : Nat),
    ownerSeq F (extendLoc loc k) = (nodeAt F loc).children := by
  intro loc
  induction loc generalizing F with
  | here i => intro k; simp [extendLoc, ownerSeq, nodeAt, locIdx]
  | child j sub ih => intro k; simp [extendLoc, ownerSeq, nodeAt, locIdx, ih]

/-! ## Id multiset bookkeeping through `mapOwner` / `mapNodeAt` -/

theorem idsOf_decomp {F : List Node} {j : Nat} (d : Node) (h : j < F.length) :
    idsOf F =
      idsOf (F.take j) ++ ((F.getD j d).id :: idsOf (F.getD j d).children)
        ++ idsOf (F.drop (j + 1)) := by
  conv_lhs => rw [← List.take_append_drop j F]
  rw [List.drop_eq_getElem_cons h]
  rw [idsOf_append, idsOf_cons]
  have : F[j] = F.getD j d := by
    simp [List.getD_eq_getElem?_getD, List.getElem?_eq_getElem h]
  rw [this]
  simp

theorem idsOf_set {F : List Node} {j : Nat} {x : Node} (h : j < F.length) :
    idsOf (F.set j x) =
      idsOf (F.take j) ++ (x.id :: idsOf x.children) ++ idsOf (F.drop (j + 1)) := by
  rw [List.set_eq_take_append_cons_drop, if_pos h, idsOf_append, idsOf_cons]
  simp

theorem mapOwner_perm (f : List Node → List Node) :
    ∀ (F : List Node) (loc : Loc), locValid F loc →
      ∀ (E : List String),
        (E ++ idsOf (f (ownerSeq F loc))).Perm (idsOf (ownerSeq F loc)) →
        (E ++ idsOf (mapOwner f F loc)).Perm (idsOf F) := by
  intro F loc
  induction loc generalizing F with
  | here i =>
    intro h E hp
    simpa [mapOwner, ownerSeq] using hp
  | child j sub ih =>
    intro h E hp
    obtain ⟨h1, h2⟩ := h
    have hsub := ih ((F.getD j default).children) h2 E (by simpa [ownerSeq] using hp)
    rw [mapOwner]
    rw [idsOf_set h1, Node.id_withChildren, Node.children_withChildren]
    rw [idsOf_decomp default h1]
    rw [List.perm_iff_count] at hsub ⊢
    intro a
    have hc := hsub a
    simp only [List.count_append, List.count_cons] at hc ⊢
    omega

theorem idsOf_mapNodeAt (g : Node → Node)
    (hid : ∀ n, (g n).id = n.id) (hch : ∀ n, (g n).children = n.children) :
    ∀ (F : List Node) (loc : Loc), locValid F loc →
      idsOf (mapNodeAt g F loc) = idsOf F := by
  intro F loc
  induction loc generalizing F with
  | here i =>
    intro h
    rw [mapNodeAt, idsOf_set h, hid, hch, ← idsOf_decomp default h]
  | child j sub ih =>
    intro h
    obtain ⟨h1, h2⟩ := h
    rw [mapNodeAt, idsOf_set h1, Node.id_withChildren, Node.children_withChildren,
      ih _ h2, ← idsOf_decomp default h1]

theorem mapOwner_ne_nil (f : List Node → List Node) (F : List Node) (loc : Loc)
    (hF : F ≠ []) (hf : ∀ s, s ≠ [] → f s ≠ []) : mapOwner f F loc ≠ [] := by
  cases loc with
  | here i => exact hf F hF
  | child j sub =>
    simp only [mapOwner]
    intro hcon
    exact hF (by simpa using congrArg List.length hcon)

theorem mapNodeAt_ne_nil (g : Node → Node) (F : List Node) (loc : Loc)
    (hF : F ≠ []) : mapNodeAt g F loc ≠ [] := by
  cases loc with
  | here i =>
    simp only [mapNodeAt]
    intro hcon
    exact hF (by simpa using congrArg List.length hcon)
  | child j sub =>
    simp only [mapNodeAt]
    intro hcon
    exact hF (by simpa using congrArg List.length hcon)

/-! ## Within-owner path surgery -/

theorem locIdx_lt_length :
    ∀ (F : List Node) (loc : Loc), locValid F loc → locIdx loc < (ownerSeq F loc).length := by
  intro F loc
  induction loc generalizing F with
  | here i => intro h; simpa [locIdx, ownerSeq] using h
  | child j sub ih => intro h; exact ih _ h.2

theorem getD_eq_getElem {l : List Node} {j : Nat} {d : Node} (h : j < l.length) :
    l.getD j d = l[j] := by
  simp [List.getD_eq_getElem?_getD, List.getElem?_eq_getElem h]

/-- Split a list at one interior position. -/
theorem seq_decomp {s : List Node} {i : Nat} (d : Node) (h : i < s.length) :
    s = s.take i ++ s.getD i d :: s.drop (i + 1) := by
  conv_lhs => rw [← List.take_append_drop i s]
  rw [List.drop_eq_getElem_cons h, getD_eq_getElem h]

/-- Split a list at two adjacent interior positions. -/
theorem seq_decomp_two {s : List Node} {i : Nat} (d : Node) (h0 : 0 < i)
    (h : i < s.length) :
    s = s.take (i - 1) ++ s.getD (i - 1) d :: s.getD i d :: s.drop (i + 1) := by
  have h1 : i - 1 < s.length := by omega
  conv_lhs => rw [← List.take_append_drop (i - 1) s]
  rw [List.drop_eq_getElem_cons h1]
  have : i - 1 + 1 = i := by omega
  rw [this, List.drop_eq_getElem_cons h, getD_eq_getElem h, getD_eq_getElem h1]

theorem locIdx_replaceTail : ∀ (loc q : Loc), locIdx (replaceTail loc q) = locIdx q := by
  intro loc q
  induction loc with
  | here i => simp [replaceTail]
  | child j sub ih => simp [replaceTail, locIdx, ih]

theorem locDepth_replaceTail :
    ∀ (loc q : Loc), locDepth (replaceTail loc q) = locDepth loc + locDepth q := by
  intro loc q
  induction loc with
  | here i => simp [replaceTail, locDepth]
  | child j sub ih => simp [replaceTail, locDepth, ih]; omega

theorem ownerSeq_mapOwner_replaceTail (f : List Node → List Node) :
    ∀ (F : List Node) (loc : Loc), locValid F loc → ∀ (q : Loc),
      ownerSeq (mapOwner f F loc) (replaceTail loc q) = ownerSeq (f (ownerSeq F loc)) q := by
  intro F loc
  induction loc generalizing F with
  | here i => intro h q; simp [mapOwner, replaceTail, ownerSeq]
  | child j sub ih =>
    intro h q
    obtain ⟨h1, h2⟩ := h
    simp only [mapOwner, replaceTail, ownerSeq, getD_set_self h1, Node.children_withChildren]
    exact ih _ h2 q

theorem locValid_mapOwner_replaceTail (f : List Node → List Node) :
    ∀ (F : List Node) (loc : Loc), locValid F loc → ∀ (q : Loc),
      locValid (f (ownerSeq F loc)) q → locValid (mapOwner f F loc) (replaceTail loc q) := by
  intro F loc
  induction loc generalizing F with
  | here i => intro h q hq; simpa [mapOwner, replaceTail, ownerSeq] using hq
  | child j sub ih =>
    intro h q hq
    obtain ⟨h1, h2⟩ := h
    simp only [mapOwner, replaceTail, locValid]
    refine ⟨by simpa using h1, ?_⟩
    simp only [getD_set_self h1, Node.children_withChildren]
    exact ih _ h2 q hq

theorem nodeAt_mapOwner_replaceTail (f : List Node → List Node)
    (F : List Node) (loc : Loc) (h : locValid F loc) (q : Loc) :
    nodeAt (mapOwner f F loc) (replaceTail loc q) = nodeAt (f (ownerSeq F loc)) q := by
  rw [nodeAt, nodeAt, ownerSeq_mapOwner_replaceTail f F loc h q, locIdx_replaceTail]

/-! ## Claim theorems -/

/-- C8.  Deleting the very first root never removes it: the forest keeps
its exact structure and every other node, and only the first root's
content is cleared. -/
theorem deleteNote_first_root (a : Node) (rest : List Node) :
    deleteNote a.id (a :: rest) = a.withContent "" :: rest := by
  cases a with
  | mk i c cs =>
    have hf : findLoc (Node.mk i c cs).id (Node.mk i c cs :: rest) = some (.here 0) := by
      rw [findLoc]
      simp [Node.id]
    rw [deleteNote, hf]
    simp [mapNodeAt]

/-- C5.  Outdent on a node sitting directly in the root sequence is
exactly `deleteNote` (hence the first-root content-clearing rule and the
child reparenting of delete apply). -/
theorem outdent_root_is_delete (id : String) (F : List Node) (i : Nat)
    (h : findLoc id F = some (.here i)) :
    decreaseNoteDepth id F = deleteNote id F := by
  rw [decreaseNoteDepth, h]

theorem idsOf_nil : idsOf [] = [] := by simp [idsOf]

theorem getD_append_cons_self (A : List Node) (b : Node) (C : List Node) (d : Node) :
    (A ++ b :: C).getD A.length d = b := by
  induction A with
  | nil => simp
  | cons a A ih => simpa using ih

theorem getD_append_cons {A : List Node} {n : Nat} (h : n = A.length) (b : Node)
    (C : List Node) (d : Node) : (A ++ b :: C).getD n d = b := by
  subst h
  exact getD_append_cons_self A b C d

/-- The splice `increaseNoteDepth` performs on the owning sequence, when
the node has a previous sibling. -/
theorem indentSeq_eq {id : String} {s : List Node} {i : Nat}
    (hidx : findIdxId id s = some i) (h0 : 0 < i) :
    indentSeq id s =
      s.take (i - 1) ++
        ((s.getD (i - 1) default).withChildren
          ((s.getD (i - 1) default).children ++ [s.getD i default])) :: s.drop (i + 1) := by
  rw [indentSeq, hidx]
  dsimp only
  rw [if_pos h0]

theorem indentSeq_eq_self {id : String} {s : List Node} {i : Nat}
    (hidx : findIdxId id s = some i) (h0 : i = 0) : indentSeq id s = s := by
  rw [indentSeq, hidx]
  dsimp only
  rw [h0]
  simp

theorem length_take_sub_one {s : List Node} {i : Nat} (hlt : i < s.length) :
    (s.take (i - 1)).length = i - 1 := by
  rw [List.length_take]
  omega

/-- Indent leaves the pre-order id list of the owning sequence literally
unchanged. -/
theorem idsOf_indentSeq {id : String} {s : List Node} {i : Nat}
    (hidx : findIdxId id s = some i) (h0 : 0 < i) (hlt : i < s.length) :
    idsOf (indentSeq id s) = idsOf s := by
  rw [indentSeq_eq hidx h0]
  conv_rhs => rw [seq_decomp_two default h0 hlt]
  rw [idsOf_append, idsOf_append, idsOf_cons, idsOf_cons, idsOf_cons,
    Node.id_withChildren, Node.children_withChildren, idsOf_append, idsOf_cons, idsOf_nil]
  simp

theorem nodeAt_indentSeq {id : String} {s : List Node} {i : Nat}
    (hidx : findIdxId id s = some i) (h0 : 0 < i) (hlt : i < s.length) :
    nodeAt (indentSeq id s)
      (.child (i - 1) (.here ((s.getD (i - 1) default).children.length))) =
      s.getD i default := by
  rw [indentSeq_eq hidx h0, nodeAt, ownerSeq, ownerSeq,
    getD_append_cons (length_take_sub_one hlt).symm, Node.children_withChildren]
  simp only [locIdx]
  rw [getD_append_cons rfl]

theorem locValid_indentSeq {id : String} {s : List Node} {i : Nat}
    (hidx : findIdxId id s = some i) (h0 : 0 < i) (hlt : i < s.length) :
    locValid (indentSeq id s)
      (.child (i - 1) (.here ((s.getD (i - 1) default).children.length))) := by
  rw [indentSeq_eq hidx h0]
  refine ⟨?_, ?_⟩
  · rw [List.length_append, length_take_sub_one hlt]
    simp
  · rw [getD_append_cons (length_take_sub_one hlt).symm, Node.children_withChildren, locValid]
    simp

/-- C7.  `indent` is a no-op on a node with no previous sibling; otherwise
it removes the node from its owning sequence and appends it — subtree
intact — as the last child of its previous sibling, and its depth grows by
exactly one. -/
theorem indent_spec (id : String) (F : List Node) (loc : Loc)
    (hwf : WF F) (hloc : findLoc id F = some loc) :
    (locIdx loc = 0 → increaseNoteDepth id F = F) ∧
    (0 < locIdx loc →
      ownerSeq (increaseNoteDepth id F) loc =
        (ownerSeq F loc).take (locIdx loc - 1) ++
          (((ownerSeq F loc).getD (locIdx loc - 1) default).withChildren
            (((ownerSeq F loc).getD (locIdx loc - 1) default).children ++ [nodeAt F loc]))
          :: (ownerSeq F loc).drop (locIdx loc + 1) ∧
      nodeAt (increaseNoteDepth id F)
          (replaceTail loc (.child (locIdx loc - 1)
            (.here ((ownerSeq F loc).getD (locIdx loc - 1) default).children.length))) =
        nodeAt F loc ∧
      depthOfId id F = some (locDepth loc) ∧
      depthOfId id (increaseNoteDepth id F) = some (locDepth loc + 1)) := by
  have hv := findLoc_valid id F loc hloc
  have hidx := findLoc_findIdx id F loc hloc
  have hlt := locIdx_lt_length F loc hv
  have heq : increaseNoteDepth id F = mapOwner (indentSeq id) F loc := by
    rw [increaseNoteDepth, hloc]
  constructor
  · intro h0
    rw [heq]
    exact mapOwner_eq_self _ F loc hv (indentSeq_eq_self hidx h0)
  · intro h0
    have howner : ownerSeq (increaseNoteDepth id F) loc = indentSeq id (ownerSeq F loc) := by
      rw [heq]
      exact ownerSeq_mapOwner _ F loc hv
    have hnode : nodeAt F loc = (ownerSeq F loc).getD (locIdx loc) default := rfl
    refine ⟨by rw [howner, indentSeq_eq hidx h0, hnode], ?_, ?_, ?_⟩
    · rw [heq, nodeAt_mapOwner_replaceTail _ F loc hv, nodeAt_indentSeq hidx h0 hlt, hnode]
    · rw [depthOfId, hloc]
      rfl
    · have hperm : (idsOf (increaseNoteDepth id F)).Perm (idsOf F) := by
        have hpe : ([] ++ idsOf (indentSeq id (ownerSeq F loc))).Perm (idsOf (ownerSeq F loc)) := by
          rw [List.nil_append, idsOf_indentSeq hidx h0 hlt]
        have := mapOwner_perm (indentSeq id) F loc hv [] hpe
        rw [← heq] at this
        simpa using this
      have hwf' : WF (increaseNoteDepth id F) := hperm.nodup_iff.mpr hwf
      have hvr : locValid (increaseNoteDepth id F)
          (replaceTail loc (.child (locIdx loc - 1)
            (.here (((ownerSeq F loc).getD (locIdx loc - 1) default).children.length)))) := by
        rw [heq]
        exact locValid_mapOwner_replaceTail _ F loc hv _ (locValid_indentSeq hidx h0 hlt)
      have hnid : (nodeAt (increaseNoteDepth id F)
          (replaceTail loc (.child (locIdx loc - 1)
            (.here (((ownerSeq F loc).getD (locIdx loc - 1) default).children.length))))).id
            = id := by
        rw [heq, nodeAt_mapOwner_replaceTail _ F loc hv, nodeAt_indentSeq hidx h0 hlt]
        have := findLoc_nodeAt id F loc hloc
        rw [nodeAt] at this
        exact this
      have hfind := findLoc_of_WF (increaseNoteDepth id F) _ hwf' hvr hnid
      rw [depthOfId, hfind]
      simp [locDepth_replaceTail, locDepth]

/-- Witness for C5 at the concrete forest `[a, b]`. -/
theorem outdent_root_is_delete_witness :
    findLoc "b" [Node.mk "a" "A" [], Node.mk "b" "B" []] = some (.here 1) ∧
    decreaseNoteDepth "b" [Node.mk "a" "A" [], Node.mk "b" "B" []] =
      deleteNote "b" [Node.mk "a" "A" [], Node.mk "b" "B" []] :=
  ⟨by simp [findLoc, Loc.shift],
   outdent_root_is_delete "b" _ 1 (by simp [findLoc, Loc.shift])⟩

/-- Witness for C7: Scenario B, `indent(B)` on `[A, B]`. -/
theorem indent_spec_witness :
    increaseNoteDepth "b" [Node.mk "a" "A" [], Node.mk "b" "B" []]
      = [Node.mk "a" "A" [Node.mk "b" "B" []]] := by
  have h := (indent_spec "b" [Node.mk "a" "A" [], Node.mk "b" "B" []] (.here 1)
      (by simp [WF, idsOf]) (by simp [findLoc, Loc.shift])).2 (by simp [locIdx])
  have h1 := h.1
  rw [ownerSeq] at h1
  simpa [ownerSeq, nodeAt, locIdx, Node.withChildren, Node.children] using h1

/-! ## Outdent: the parent path -/

theorem locDepth_parentLoc :
    ∀ (loc : Loc), isChildLoc loc → locDepth (parentLoc loc) = locDepth loc - 1 := by
  intro loc
  induction loc with
  | here i => intro h; exact absurd h (by simp [isChildLoc])
  | child j sub ih =>
    intro _
    cases sub with
    | here i => simp [parentLoc, locDepth]
    | child j' s' =>
      have := ih (by simp [isChildLoc])
      simp only [parentLoc, locDepth] at this ⊢
      omega

theorem locValid_parentLoc :
    ∀ (F : List Node) (loc : Loc), isChildLoc loc → locValid F loc →
      locValid F (parentLoc loc) := by
  intro F loc
  induction loc generalizing F with
  | here i => intro h; exact absurd h (by simp [isChildLoc])
  | child j sub ih =>
    intro _ hv
    cases sub with
    | here i => exact hv.1
    | child j' s' =>
      exact ⟨hv.1, ih _ (by simp [isChildLoc]) hv.2⟩

/-- On a non-root path, the owning sequence is the parent's `children`. -/
theorem ownerSeq_eq_parent_children :
    ∀ (F : List Node) (loc : Loc), isChildLoc loc →
      ownerSeq F loc = (nodeAt F (parentLoc loc)).children := by
  intro F loc
  induction loc generalizing F with
  | here i => intro h; exact absurd h (by simp [isChildLoc])
  | child j sub ih =>
    intro _
    cases sub with
    | here i => simp [ownerSeq, parentLoc, nodeAt, locIdx]
    | child j' s' =>
      have := ih ((F.getD j default).children) (by simp [isChildLoc])
      simp only [ownerSeq, parentLoc, nodeAt, locIdx]
      simpa [ownerSeq, nodeAt] using this

/-- In a duplicate-free forest, re-finding the parent by id after its
children were replaced lands exactly on the parent's position. -/
theorem findIdxId_set_self :
    ∀ (F : List Node) (j : Nat), (idsOf F).Nodup → j < F.length → ∀ (cs : List Node),
      findIdxId ((F.getD j default).id) (F.set j ((F.getD j default).withChildren cs))
        = some j
  | [], j, _, hj, _ => by simp at hj
  | n :: rest, 0, hnd, hj, cs => by
    simp only [List.getD_cons_zero, List.set_cons_zero]
    rw [findIdxId_cons, if_pos (Node.id_withChildren n cs)]
  | n :: rest, j + 1, hnd, hj, cs => by
    simp only [List.getD_cons_succ, List.set_cons_succ]
    rw [findIdxId_cons]
    have hj' : j < rest.length := by simpa using hj
    have hmem : (rest.getD j default).id ∈ idsOf rest := getD_id_mem rest j hj'
    have hnotin : n.id ∉ idsOf n.children ++ idsOf rest := by
      have := hnd
      rw [idsOf_cons] at this
      exact (List.nodup_cons.mp this).1
    have hne : ¬ n.id = (rest.getD j default).id := by
      intro he
      exact hnotin (he ▸ List.mem_append_right _ hmem)
    have hndrest : (idsOf rest).Nodup := by
      have := hnd
      rw [idsOf_cons] at this
      exact ((List.nodup_append.mp (List.nodup_cons.mp this).2).2.1)
    rw [if_neg hne, findIdxId_set_self rest j hndrest hj' cs]
    rfl

/-- The container-level computation of `decreaseNoteDepth` at the level
where the owning sequence is `children` of `F[j]`. -/
theorem outdentGo_base {id : String} {F : List Node} {j i : Nat}
    (hj : j < F.length) (hnd : (idsOf F).Nodup)
    (hfi : findIdxId id ((F.getD j default).children) = some i) :
    outdentGo id F (.child j (.here i)) =
      insertAt (j + 1) ((F.getD j default).children.getD i default)
        (F.set j ((F.getD j default).withChildren
          ((F.getD j default).children.take i ++ (F.getD j default).children.drop (i + 1)))) := by
  rw [outdentGo, hfi]
  dsimp only
  rw [findIdxId_set_self F j hnd hj]

theorem outdentGo_base' {id : String} {F : List Node} {j i : Nat}
    (hj : j < F.length) (hnd : (idsOf F).Nodup)
    (hfi : findIdxId id ((F.getD j default).children) = some i) :
    outdentGo id F (.child j (.here i)) = outdentResultAt F j i :=
  outdentGo_base hj hnd hfi

theorem nodup_children {F : List Node} {j : Nat}
    (hnd : (idsOf F).Nodup) (hj : j < F.length) :
    (idsOf (F.getD j default).children).Nodup := by
  rw [idsOf_decomp default hj] at hnd
  have h1 := (List.nodup_append.mp hnd).1
  have h2 := (List.nodup_append.mp h1).2.1
  exact (List.nodup_cons.mp h2).2

/-- `ownerSeq` of the outdent result along any continuation of the parent
path: the whole edit happens inside the parent's container. -/
theorem ownerSeq_outdentGo (id : String) :
    ∀ (F : List Node) (loc : Loc), isChildLoc loc → locValid F loc →
      (idsOf F).Nodup → findIdxId id (ownerSeq F loc) = some (locIdx loc) →
      ∀ q, ownerSeq (outdentGo id F loc) (replaceTail (parentLoc loc) q) =
        ownerSeq (outdentResultAt (ownerSeq F (parentLoc loc)) (locIdx (parentLoc loc))
          (locIdx loc)) q := by
  intro F loc
  induction loc generalizing F with
  | here i => intro h; exact absurd h (by simp [isChildLoc])
  | child j sub ih =>
    intro _ hv hnd hfi q
    cases sub with
    | here i =>
      have hfi' : findIdxId id ((F.getD j default).children) = some i := by
        simpa [ownerSeq, locIdx] using hfi
      rw [outdentGo_base' hv.1 hnd hfi']
      simp [parentLoc, replaceTail, ownerSeq, locIdx, nodeAt]
    | child j' s' =>
      have hvch : locValid (F.getD j default).children (.child j' s') := hv.2
      have hndch : (idsOf (F.getD j default).children).Nodup := nodup_children hnd hv.1
      have hfich : findIdxId id (ownerSeq (F.getD j default).children (.child j' s'))
          = some (locIdx (.child j' s')) := by
        simpa [ownerSeq, locIdx] using hfi
      have := ih ((F.getD j default).children) (by simp [isChildLoc]) hvch hndch hfich q
      show ownerSeq _ (replaceTail (.child j (parentLoc (.child j' s'))) q) = _
      rw [outdentGo]
      case x_2 => intro i hcon; exact Loc.noConfusion hcon
      simp only [replaceTail, ownerSeq, getD_set_self hv.1, Node.children_withChildren]
      rw [this]
      simp [parentLoc, ownerSeq, locIdx, nodeAt]

theorem idsOf_insertAt (k : Nat) (a : Node) (L : List Node) :
    idsOf (insertAt k a L) =
      idsOf (L.take k) ++ (a.id :: idsOf a.children) ++ idsOf (L.drop k) := by
  rw [insertAt, idsOf_append, idsOf_cons]
  simp [List.append_assoc]

theorem idsOf_take_drop (k : Nat) (L : List Node) :
    idsOf (L.take k) ++ idsOf (L.drop k) = idsOf L := by
  rw [← idsOf_append, List.take_append_drop]

theorem idsOf_outdentResultAt_perm {F : List Node} {j i : Nat}
    (hj : j < F.length) (hi : i < (F.getD j default).children.length) :
    (idsOf (outdentResultAt F j i)).Perm (idsOf F) := by
  have hch : (F.getD j default).children =
      (F.getD j default).children.take i ++
        (F.getD j default).children.getD i default :: (F.getD j default).children.drop (i + 1) :=
    seq_decomp default hi
  have hchids : idsOf (F.getD j default).children =
      idsOf ((F.getD j default).children.take i) ++
        (((F.getD j default).children.getD i default).id ::
          (idsOf ((F.getD j default).children.getD i default).children ++
            idsOf ((F.getD j default).children.drop (i + 1)))) := by
    conv_lhs => rw [hch]
    rw [idsOf_append, idsOf_cons]
  have hLids : idsOf (F.set j ((F.getD j default).withChildren
      ((F.getD j default).children.take i ++ (F.getD j default).children.drop (i + 1)))) =
      idsOf (F.take j) ++
        ((F.getD j default).id ::
          (idsOf ((F.getD j default).children.take i) ++
            idsOf ((F.getD j default).children.drop (i + 1)))) ++
        idsOf (F.drop (j + 1)) := by
    rw [idsOf_set hj, Node.id_withChildren, Node.children_withChildren, idsOf_append]
  have hFids := idsOf_decomp (F := F) default hj
  rw [outdentResultAt, List.perm_iff_count]
  intro a
  have e1 := congrArg (List.count a) (idsOf_insertAt (j + 1)
    ((F.getD j default).children.getD i default)
    (F.set j ((F.getD j default).withChildren
      ((F.getD j default).children.take i ++ (F.getD j default).children.drop (i + 1)))))
  have e2 := congrArg (List.count a) (idsOf_take_drop (j + 1)
    (F.set j ((F.getD j default).withChildren
      ((F.getD j default).children.take i ++ (F.getD j default).children.drop (i + 1)))))
  have e3 := congrArg (List.count a) hLids
  have e4 := congrArg (List.count a) hFids
  have e5 := congrArg (List.count a) hchids
  simp only [List.count_append, List.count_cons] at e1 e2 e3 e4 e5 ⊢
  omega

theorem outdentGo_perm (id : String) :
    ∀ (F : List Node) (loc : Loc), isChildLoc loc → locValid F loc →
      (idsOf F).Nodup → findIdxId id (ownerSeq F loc) = some (locIdx loc) →
      (idsOf (outdentGo id F loc)).Perm (idsOf F) := by
  intro F loc
  induction loc generalizing F with
  | here i => intro h; exact absurd h (by simp [isChildLoc])
  | child j sub ih =>
    intro _ hv hnd hfi
    cases sub with
    | here i =>
      have hfi' : findIdxId id ((F.getD j default).children) = some i := by
        simpa [ownerSeq, locIdx] using hfi
      rw [outdentGo_base' hv.1 hnd hfi']
      have hi : i < (F.getD j default).children.length := by
        have := hv.2
        simpa [locValid] using this
      exact idsOf_outdentResultAt_perm hv.1 hi
    | child j' s' =>
      have hvch : locValid (F.getD j default).children (.child j' s') := hv.2
      have hndch : (idsOf (F.getD j default).children).Nodup := nodup_children hnd hv.1
      have hfich : findIdxId id (ownerSeq (F.getD j default).children (.child j' s'))
          = some (locIdx (.child j' s')) := by
        simpa [ownerSeq, locIdx] using hfi
      have hih := ih ((F.getD j default).children) (by simp [isChildLoc]) hvch hndch hfich
      rw [outdentGo]
      case x_2 => intro i hcon; exact Loc.noConfusion hcon
      rw [List.perm_iff_count]
      intro a
      have e1 := congrArg (List.count a) (idsOf_set (x := (F.getD j default).withChildren
        (outdentGo id (F.getD j default).children (.child j' s'))) hv.1)
      rw [Node.id_withChildren, Node.children_withChildren] at e1
      have e4 := congrArg (List.count a) (idsOf_decomp (F := F) default hv.1)
      have e5 := hih.count_eq a
      simp only [List.count_append, List.count_cons] at e1 e4 e5 ⊢
      omega

theorem locValid_outdentGo (id : String) :
    ∀ (F : List Node) (loc : Loc), isChildLoc loc → locValid F loc →
      (idsOf F).Nodup → findIdxId id (ownerSeq F loc) = some (locIdx loc) →
      ∀ q, locValid (outdentResultAt (ownerSeq F (parentLoc loc)) (locIdx (parentLoc loc))
          (locIdx loc)) q →
        locValid (outdentGo id F loc) (replaceTail (parentLoc loc) q) := by
  intro F loc
  induction loc generalizing F with
  | here i => intro h; exact absurd h (by simp [isChildLoc])
  | child j sub ih =>
    intro _ hv hnd hfi q hq
    cases sub with
    | here i =>
      have hfi' : findIdxId id ((F.getD j default).children) = some i := by
        simpa [ownerSeq, locIdx] using hfi
      rw [outdentGo_base' hv.1 hnd hfi']
      simpa [parentLoc, replaceTail, ownerSeq, locIdx] using hq
    | child j' s' =>
      have hvch : locValid (F.getD j default).children (.child j' s') := hv.2
      have hndch : (idsOf (F.getD j default).children).Nodup := nodup_children hnd hv.1
      have hfich : findIdxId id (ownerSeq (F.getD j default).children (.child j' s'))
          = some (locIdx (.child j' s')) := by
        simpa [ownerSeq, locIdx] using hfi
      have hq' : locValid (outdentResultAt
          (ownerSeq (F.getD j default).children (parentLoc (.child j' s')))
          (locIdx (parentLoc (.child j' s'))) (locIdx (.child j' s'))) q := by
        simpa [parentLoc, ownerSeq, locIdx] using hq
      have hih := ih ((F.getD j default).children) (by simp [isChildLoc]) hvch hndch hfich q hq'
      rw [outdentGo]
      case x_2 => intro i hcon; exact Loc.noConfusion hcon
      show locValid _ (replaceTail (.child j (parentLoc (.child j' s'))) q)
      refine ⟨by simpa using hv.1, ?_⟩
      simp only [getD_set_self hv.1, Node.children_withChildren]
      exact hih

theorem replaceTail_here (loc : Loc) (m : Nat) : replaceTail loc (.here m) = setIdx loc m := by
  induction loc with
  | here i => simp [replaceTail, setIdx]
  | child j sub ih => simp [replaceTail, setIdx, ih]

theorem length_insertAt {L : List Node} {k : Nat} (a : Node) (hk : k ≤ L.length) :
    (insertAt k a L).length = L.length + 1 := by
  rw [insertAt]
  simp [List.length_take]
  omega

theorem getD_insertAt_self {L : List Node} {k : Nat} (a d : Node) (hk : k ≤ L.length) :
    (insertAt k a L).getD k d = a := by
  rw [insertAt]
  exact getD_append_cons (by rw [List.length_take]; omega) a _ d

/-- C6.  Outdent on a non-root node: the node leaves its parent `P`'s
children (its former following siblings stay with `P`, order untouched)
and is re-inserted, subtree intact, immediately after `P` in the sequence
owning `P`; its depth drops by exactly one. -/
theorem outdent_spec (id : String) (F : List Node) (loc : Loc)
    (hwf : WF F) (hloc : findLoc id F = some loc) (hchild : isChildLoc loc) :
    decreaseNoteDepth id F = outdentGo id F loc ∧
    ownerSeq F loc = (nodeAt F (parentLoc loc)).children ∧
    ownerSeq (decreaseNoteDepth id F) (parentLoc loc) =
      insertAt (locIdx (parentLoc loc) + 1) (nodeAt F loc)
        ((ownerSeq F (parentLoc loc)).set (locIdx (parentLoc loc))
          ((nodeAt F (parentLoc loc)).withChildren
            ((ownerSeq F loc).take (locIdx loc) ++ (ownerSeq F loc).drop (locIdx loc + 1)))) ∧
    nodeAt (decreaseNoteDepth id F)
        (replaceTail (parentLoc loc) (.here (locIdx (parentLoc loc) + 1))) = nodeAt F loc ∧
    depthOfId id F = some (locDepth loc) ∧
    depthOfId id (decreaseNoteDepth id F) = some (locDepth loc - 1) := by
  have hv := findLoc_valid id F loc hloc
  have hidx := findLoc_findIdx id F loc hloc
  have hnd : (idsOf F).Nodup := hwf
  have ha : decreaseNoteDepth id F = outdentGo id F loc := by
    cases loc with
    | here i => exact absurd hchild (by simp [isChildLoc])
    | child j sub => rw [decreaseNoteDepth, hloc]
  have hb := ownerSeq_eq_parent_children F loc hchild
  have hvp := locValid_parentLoc F loc hchild hv
  have hplt := locIdx_lt_length F (parentLoc loc) hvp
  have hilt := locIdx_lt_length F loc hv
  have hPd : nodeAt F (parentLoc loc) =
      (ownerSeq F (parentLoc loc)).getD (locIdx (parentLoc loc)) default := rfl
  have hnd2 : nodeAt F loc = (ownerSeq F loc).getD (locIdx loc) default := rfl
  have hown0 := ownerSeq_outdentGo id F loc hchild hv hnd hidx (.here 0)
  have hc : ownerSeq (decreaseNoteDepth id F) (parentLoc loc) =
      outdentResultAt (ownerSeq F (parentLoc loc)) (locIdx (parentLoc loc)) (locIdx loc) := by
    rw [ha]
    have h0 : ownerSeq (outdentGo id F loc) (replaceTail (parentLoc loc) (.here 0)) =
        ownerSeq (outdentGo id F loc) (parentLoc loc) := by
      rw [replaceTail_here, ownerSeq_setIdx]
    rw [← h0, hown0, ownerSeq]
  have hcr : outdentResultAt (ownerSeq F (parentLoc loc)) (locIdx (parentLoc loc))
      (locIdx loc) =
      insertAt (locIdx (parentLoc loc) + 1) (nodeAt F loc)
        ((ownerSeq F (parentLoc loc)).set (locIdx (parentLoc loc))
          ((nodeAt F (parentLoc loc)).withChildren
            ((ownerSeq F loc).take (locIdx loc) ++ (ownerSeq F loc).drop (locIdx loc + 1)))) := by
    rw [outdentResultAt, ← hPd, ← hb, ← hnd2]
  refine ⟨ha, hb, by rw [hc, hcr], ?_, ?_, ?_⟩
  · -- the moved node sits right after its former parent, untouched
    rw [ha, nodeAt, locIdx_replaceTail, ownerSeq_outdentGo id F loc hchild hv hnd hidx]
    rw [ownerSeq, locIdx, outdentResultAt]
    rw [getD_insertAt_self]
    · rw [← hPd, ← hb, ← hnd2]
    · rw [hb] at hilt
      simp only [List.length_set]
      omega
  · rw [depthOfId, hloc]
    rfl
  · have hperm := outdentGo_perm id F loc hchild hv hnd hidx
    have hwf' : WF (decreaseNoteDepth id F) := by
      rw [WF, ha]
      exact hperm.nodup_iff.mpr hwf
    have hvq : locValid (outdentResultAt (ownerSeq F (parentLoc loc))
        (locIdx (parentLoc loc)) (locIdx loc)) (.here (locIdx (parentLoc loc) + 1)) := by
      show locIdx (parentLoc loc) + 1 < _
      rw [outdentResultAt, length_insertAt]
      · simp only [List.length_set]
        omega
      · simp only [List.length_set]
        omega
    have hvr : locValid (decreaseNoteDepth id F)
        (replaceTail (parentLoc loc) (.here (locIdx (parentLoc loc) + 1))) := by
      rw [ha]
      exact locValid_outdentGo id F loc hchild hv hnd hidx _ hvq
    have hnid : (nodeAt (decreaseNoteDepth id F)
        (replaceTail (parentLoc loc) (.here (locIdx (parentLoc loc) + 1)))).id = id := by
      rw [ha, nodeAt, locIdx_replaceTail, ownerSeq_outdentGo id F loc hchild hv hnd hidx]
      rw [ownerSeq, locIdx, outdentResultAt]
      rw [getD_insertAt_self]
      · have := findLoc_nodeAt id F loc hloc
        rw [nodeAt] at this
        rw [← hPd, ← hb]
        exact this
      · rw [hb] at hilt
        simp only [List.length_set]
        omega
    have hfind := findLoc_of_WF (decreaseNoteDepth id F) _ hwf' hvr hnid
    rw [depthOfId, hfind]
    simp only [Option.map]
    rw [replaceTail_here, locDepth_setIdx, locDepth_parentLoc loc hchild]

/-- Witness for C6: Scenario C, `outdent(B)` on `[A[B]]`. -/
theorem outdent_spec_witness :
    decreaseNoteDepth "b" [Node.mk "a" "A" [Node.mk "b" "B" []]]
      = [Node.mk "a" "A" [], Node.mk "b" "B" []] := by
  have h := outdent_spec "b" [Node.mk "a" "A" [Node.mk "b" "B" []]] (.child 0 (.here 0))
      (by simp [WF, idsOf]) (by simp [findLoc]) (by simp [isChildLoc])
  have hc := h.2.2.1
  rw [parentLoc] at hc
  rw [ownerSeq] at hc
  simpa [ownerSeq, nodeAt, locIdx, insertAt, Node.withChildren, Node.children] using hc

theorem deleteNote_eq {id : String} {F : List Node} {loc : Loc}
    (h : findLoc id F = some loc) (hne : loc ≠ .here 0) :
    deleteNote id F = mapOwner (deleteSeq id) F loc := by
  match loc, hne with
  | .here (i + 1), _ =>
    rw [deleteNote, h]
    rfl
  | .child j sub, _ =>
    rw [deleteNote, h]

theorem deleteSeq_eq {id : String} {s : List Node} {i : Nat}
    (hidx : findIdxId id s = some i) :
    deleteSeq id s = s.take i ++ (s.getD i default).children ++ s.drop (i + 1) := by
  rw [deleteSeq, hidx]

/-- Removing a node and splicing in its children removes exactly one
occurrence of its id from the owning sequence's id list. -/
theorem idsOf_deleteSeq_perm {id : String} {s : List Node} {i : Nat}
    (hidx : findIdxId id s = some i) (hlt : i < s.length) :
    (idsOf s).Perm ((s.getD i default).id :: idsOf (deleteSeq id s)) := by
  rw [deleteSeq_eq hidx, List.perm_iff_count]
  intro a
  have e1 := congrArg (List.count a) (idsOf_decomp (F := s) default hlt)
  have e2 := congrArg (List.count a)
    (idsOf_append (s.take i ++ (s.getD i default).children) (s.drop (i + 1)))
  have e3 := congrArg (List.count a) (idsOf_append (s.take i) (s.getD i default).children)
  simp only [List.count_append, List.count_cons] at e1 e2 e3 ⊢
  omega

/-- C3.  Deleting a non-first-root node removes it from its owning
sequence at its index and splices its children into that slot, in their
original order; exactly one node (the deleted one) leaves the forest. -/
theorem delete_spec (id : String) (F : List Node) (loc : Loc)
    (hloc : findLoc id F = some loc) (hne : loc ≠ .here 0) :
    deleteNote id F = mapOwner (deleteSeq id) F loc ∧
    ownerSeq (deleteNote id F) loc =
      (ownerSeq F loc).take (locIdx loc) ++ (nodeAt F loc).children ++
        (ownerSeq F loc).drop (locIdx loc + 1) ∧
    (idsOf F).Perm (id :: idsOf (deleteNote id F)) := by
  have hv := findLoc_valid id F loc hloc
  have hidx := findLoc_findIdx id F loc hloc
  have hilt := locIdx_lt_length F loc hv
  have ha := deleteNote_eq hloc hne
  have hid : (nodeAt F loc).id = id := findLoc_nodeAt id F loc hloc
  refine ⟨ha, ?_, ?_⟩
  · rw [ha, ownerSeq_mapOwner _ F loc hv, deleteSeq_eq hidx]
    rfl
  · have hp := idsOf_deleteSeq_perm hidx hilt
    have hid2 : ((ownerSeq F loc).getD (locIdx loc) default).id = id := hid
    rw [hid2] at hp
    have := mapOwner_perm (deleteSeq id) F loc hv [id] (by simpa using hp.symm)
    rw [← ha] at this
    simpa using this.symm

/-- Witness for C3: Scenario E — deleting `A` in `[R[A[X, Y]]]` promotes
`X, Y` into `R.children` in order. -/
theorem delete_spec_witness :
    deleteNote "a" [Node.mk "r" "R" [Node.mk "a" "A" [Node.mk "x" "X" [], Node.mk "y" "Y" []]]]
      = [Node.mk "r" "R" [Node.mk "x" "X" [], Node.mk "y" "Y" []]] := by
  have h := (delete_spec "a"
      [Node.mk "r" "R" [Node.mk "a" "A" [Node.mk "x" "X" [], Node.mk "y" "Y" []]]]
      (.child 0 (.here 0)) (by simp [findLoc]) (by simp)).1
  rw [h]
  simp [mapOwner, deleteSeq, findIdxId_cons, findIdxId_nil, Node.id, Node.children,
    Node.withChildren]

theorem ownerSeq_replaceTail (F : List Node) :
    ∀ (loc q : Loc), ownerSeq F (replaceTail loc q) = ownerSeq (ownerSeq F loc) q := by
  intro loc
  induction loc generalizing F with
  | here i => intro q; simp [replaceTail, ownerSeq]
  | child j sub ih => intro q; simp [replaceTail, ownerSeq, ih]

theorem nodeAt_replaceTail (F : List Node) (loc q : Loc) :
    nodeAt F (replaceTail loc q) = nodeAt (ownerSeq F loc) q := by
  rw [nodeAt, ownerSeq_replaceTail, locIdx_replaceTail, nodeAt]

theorem locValid_replaceTail_of :
    ∀ (F : List Node) (loc : Loc), locValid F loc → ∀ q, locValid (ownerSeq F loc) q →
      locValid F (replaceTail loc q) := by
  intro F loc
  induction loc generalizing F with
  | here i => intro h q hq; simpa [replaceTail, ownerSeq] using hq
  | child j sub ih =>
    intro h q hq
    exact ⟨h.1, ih _ h.2 q (by simpa [ownerSeq] using hq)⟩

theorem getD_append_mid {A B C : List Node} {k : Nat} (hk : k < B.length) (d : Node)
    {n : Nat} (hn : n = A.length + k) : (A ++ B ++ C).getD n d = B.getD k d := by
  subst hn
  rw [List.append_assoc]
  induction A with
  | nil =>
    simp only [List.nil_append, List.length_nil, Nat.zero_add]
    rw [List.getD_eq_getElem?_getD, List.getElem?_append_left (by simpa using hk),
      ← List.getD_eq_getElem?_getD]
  | cons a A ih =>
    have : (a :: A).length + k = (A.length + k) + 1 := by simp; omega
    rw [this]
    simpa using ih

/-- C4 (amended).  After deleting a non-first-root node, each of its former
children sits one level higher: its depth decreases by exactly 1 (the claim
as frozen says the depth is unchanged; the code moves the children into the
deleted node's own level). -/
theorem delete_child_depth (id : String) (F : List Node) (loc : Loc) (k : Nat)
    (hwf : WF F) (hloc : findLoc id F = some loc) (hne : loc ≠ .here 0)
    (hk : k < (nodeAt F loc).children.length) :
    depthOfId ((nodeAt F loc).children.getD k default).id F = some (locDepth loc + 1) ∧
    depthOfId ((nodeAt F loc).children.getD k default).id (deleteNote id F)
      = some (locDepth loc) := by
  have hv := findLoc_valid id F loc hloc
  have hidx := findLoc_findIdx id F loc hloc
  have hilt := locIdx_lt_length F loc hv
  have ha := deleteNote_eq hloc hne
  have hid : (nodeAt F loc).id = id := findLoc_nodeAt id F loc hloc
  have hnode : nodeAt F loc = (ownerSeq F loc).getD (locIdx loc) default := rfl
  constructor
  · -- before the deletion: the child is one step below the node
    have hvq : locValid (ownerSeq F loc) (.child (locIdx loc) (.here k)) := by
      refine ⟨hilt, ?_⟩
      rw [← hnode]
      exact hk
    have hvc : locValid F (replaceTail loc (.child (locIdx loc) (.here k))) :=
      locValid_replaceTail_of F loc hv _ hvq
    have hnat : nodeAt F (replaceTail loc (.child (locIdx loc) (.here k))) =
        (nodeAt F loc).children.getD k default := by
      rw [nodeAt_replaceTail, nodeAt, ownerSeq, ownerSeq, locIdx, ← hnode]
      simp [locIdx]
    have hfind := findLoc_of_WF F _ hwf hvc (by rw [hnat])
    rw [depthOfId, hfind]
    simp [locDepth_replaceTail, locDepth]
  · -- afterwards: the child occupies the deleted node's level
    have hperm : (idsOf F).Perm (id :: idsOf (deleteNote id F)) := by
      have hp := idsOf_deleteSeq_perm hidx hilt
      have hid2 : ((ownerSeq F loc).getD (locIdx loc) default).id = id := hid
      rw [hid2] at hp
      have := mapOwner_perm (deleteSeq id) F loc hv [id] (by simpa using hp.symm)
      rw [← ha] at this
      simpa using this.symm
    have hwf' : WF (deleteNote id F) := by
      have : (id :: idsOf (deleteNote id F)).Nodup := hperm.nodup_iff.mp hwf
      exact (List.nodup_cons.mp this).2
    have hlen : (deleteSeq id (ownerSeq F loc)).length =
        (ownerSeq F loc).length - 1 + (nodeAt F loc).children.length := by
      rw [deleteSeq_eq hidx, ← hnode]
      simp only [List.length_append, List.length_take, List.length_drop]
      omega
    have hvq : locValid (deleteSeq id (ownerSeq F loc)) (.here (locIdx loc + k)) := by
      show locIdx loc + k < _
      rw [hlen]
      omega
    have hvc : locValid (deleteNote id F) (replaceTail loc (.here (locIdx loc + k))) := by
      rw [ha]
      exact locValid_mapOwner_replaceTail _ F loc hv _ hvq
    have hnat : nodeAt (deleteNote id F) (replaceTail loc (.here (locIdx loc + k))) =
        (nodeAt F loc).children.getD k default := by
      rw [ha, nodeAt_mapOwner_replaceTail _ F loc hv, nodeAt, locIdx, ownerSeq,
        deleteSeq_eq hidx, ← hnode]
      exact getD_append_mid hk default (by rw [List.length_take]; omega)
    have hfind := findLoc_of_WF (deleteNote id F) _ hwf' hvc (by rw [hnat])
    rw [depthOfId, hfind]
    simp [locDepth_replaceTail, locDepth]

/-- Counterexample to C4 as frozen: Scenario E.  Before `delete(A)`, `X`
has depth 2; afterwards it has depth 1 — the children's depth is *not*
unchanged. -/
theorem delete_child_depth_cex :
    depthOfId "x"
        [Node.mk "r" "R" [Node.mk "a" "A" [Node.mk "x" "X" [], Node.mk "y" "Y" []]]]
      = some 2 ∧
    depthOfId "x" (deleteNote "a"
        [Node.mk "r" "R" [Node.mk "a" "A" [Node.mk "x" "X" [], Node.mk "y" "Y" []]]])
      = some 1 := by
  constructor
  · simp [depthOfId, findLoc, Loc.shift, locDepth]
  · have hd : deleteNote "a"
        [Node.mk "r" "R" [Node.mk "a" "A" [Node.mk "x" "X" [], Node.mk "y" "Y" []]]]
        = [Node.mk "r" "R" [Node.mk "x" "X" [], Node.mk "y" "Y" []]] := by
      simp [deleteNote, findLoc, mapOwner, deleteSeq, findIdxId_cons, findIdxId_nil,
        Node.id, Node.children, Node.withChildren]
    rw [hd]
    simp [depthOfId, findLoc, Loc.shift, locDepth]

/-- Witness for the amended C4 at Scenario E, child `X` (k = 0). -/
theorem delete_child_depth_witness :
    depthOfId ((nodeAt
        [Node.mk "r" "R" [Node.mk "a" "A" [Node.mk "x" "X" [], Node.mk "y" "Y" []]]]
        (.child 0 (.here 0))).children.getD 0 default).id
        [Node.mk "r" "R" [Node.mk "a" "A" [Node.mk "x" "X" [], Node.mk "y" "Y" []]]]
      = some 2 ∧
    depthOfId ((nodeAt
        [Node.mk "r" "R" [Node.mk "a" "A" [Node.mk "x" "X" [], Node.mk "y" "Y" []]]]
        (.child 0 (.here 0))).children.getD 0 default).id
        (deleteNote "a"
          [Node.mk "r" "R" [Node.mk "a" "A" [Node.mk "x" "X" [], Node.mk "y" "Y" []]]])
      = some 1 := by
  have h := delete_child_depth "a"
      [Node.mk "r" "R" [Node.mk "a" "A" [Node.mk "x" "X" [], Node.mk "y" "Y" []]]]
      (.child 0 (.here 0)) 0
      (by simp [WF, idsOf]) (by simp [findLoc]) (by simp)
      (by simp [nodeAt, ownerSeq, locIdx, Node.children])
  simpa [locDepth] using h

/-- C10.  Indent (with a previous sibling) and outdent (on a non-root
node) only relocate: the moved node — id, content and whole subtree — is
found intact at its new position, and the forest's id multiset is
preserved. -/
theorem move_frame_spec (id : String) (F : List Node) (loc : Loc)
    (hwf : WF F) (hloc : findLoc id F = some loc) :
    (0 < locIdx loc →
      (idsOf (increaseNoteDepth id F)).Perm (idsOf F) ∧
      nodeAt (increaseNoteDepth id F)
        (replaceTail loc (.child (locIdx loc - 1)
          (.here ((ownerSeq F loc).getD (locIdx loc - 1) default).children.length))) =
        nodeAt F loc) ∧
    (isChildLoc loc →
      (idsOf (decreaseNoteDepth id F)).Perm (idsOf F) ∧
      nodeAt (decreaseNoteDepth id F)
        (replaceTail (parentLoc loc) (.here (locIdx (parentLoc loc) + 1))) =
        nodeAt F loc) := by
  have hv := findLoc_valid id F loc hloc
  have hidx := findLoc_findIdx id F loc hloc
  have hilt := locIdx_lt_length F loc hv
  constructor
  · intro h0
    have heq : increaseNoteDepth id F = mapOwner (indentSeq id) F loc := by
      rw [increaseNoteDepth, hloc]
    constructor
    · have hpe : ([] ++ idsOf (indentSeq id (ownerSeq F loc))).Perm (idsOf (ownerSeq F loc)) := by
        rw [List.nil_append, idsOf_indentSeq hidx h0 hilt]
      have := mapOwner_perm (indentSeq id) F loc hv [] hpe
      rw [← heq] at this
      simpa using this
    · rw [heq, nodeAt_mapOwner_replaceTail _ F loc hv, nodeAt_indentSeq hidx h0 hilt]
      rfl
  · intro hchild
    have ha : decreaseNoteDepth id F = outdentGo id F loc := by
      cases loc with
      | here i => exact absurd hchild (by simp [isChildLoc])
      | child j sub => rw [decreaseNoteDepth, hloc]
    have hb := ownerSeq_eq_parent_children F loc hchild
    constructor
    · rw [ha]
      exact outdentGo_perm id F loc hchild hv hwf hidx
    · rw [ha, nodeAt, locIdx_replaceTail, ownerSeq_outdentGo id F loc hchild hv hwf hidx]
      rw [ownerSeq, locIdx, outdentResultAt]
      rw [getD_insertAt_self]
      · have hPd : nodeAt F (parentLoc loc) =
            (ownerSeq F (parentLoc loc)).getD (locIdx (parentLoc loc)) default := rfl
        rw [← hPd, ← hb]
        rfl
      · have hvp := locValid_parentLoc F loc hchild hv
        have hplt := locIdx_lt_length F (parentLoc loc) hvp
        simp only [List.length_set]
        omega

/-- Witness for C10 on `[A [B, C]]`: indent and outdent of `C` both
preserve the id multiset. -/
theorem move_frame_spec_witness :
    (idsOf (increaseNoteDepth "c"
        [Node.mk "a" "A" [Node.mk "b" "B" [], Node.mk "c" "C" []]])).Perm
      (idsOf [Node.mk "a" "A" [Node.mk "b" "B" [], Node.mk "c" "C" []]]) ∧
    (idsOf (decreaseNoteDepth "c"
        [Node.mk "a" "A" [Node.mk "b" "B" [], Node.mk "c" "C" []]])).Perm
      (idsOf [Node.mk "a" "A" [Node.mk "b" "B" [], Node.mk "c" "C" []]]) := by
  have h := move_frame_spec "c" [Node.mk "a" "A" [Node.mk "b" "B" [], Node.mk "c" "C" []]]
      (.child 0 (.here 1)) (by simp [WF, idsOf]) (by simp [findLoc, Loc.shift])
  exact ⟨(h.1 (by simp [locIdx])).1, (h.2 (by simp [isChildLoc])).1⟩

/-! ## The import machine, line by line -/

theorem popWhile_lt {d fd : Int} {rc : List Node} {rest : List Frame} (h : fd < d) :
    popWhile d ((fd, rc) :: rest) = (fd, rc) :: rest := by
  cases rest with
  | nil =>
    rw [popWhile]
    intro fd1 rc1 pd pc rest hcon
    simp at hcon
  | cons p ps => rw [popWhile, if_neg (by omega)]

/-- On a non-blank line, one `importFromTxt` iteration is the pair machine
step on (leading-tab count, trimmed content). -/
theorem importStep_eq_stepP (gen : Nat → String) (st : List Frame) (k : Nat)
    (line : List Char) (h : trimL line ≠ []) :
    importStep gen (st, k) line = stepP gen (st, k) (searchNonTab line, trimL line) := by
  rw [importStep, stepP]
  dsimp only
  rw [if_neg (by simpa [List.isEmpty_iff] using h)]

theorem foldl_importStep_eq (gen : Nat → String) :
    ∀ (lines : List (List Char)) (p : List Frame × Nat),
      (∀ l ∈ lines, trimL l ≠ []) →
      lines.foldl (importStep gen) p =
        (lines.map (fun l => (searchNonTab l, trimL l))).foldl (stepP gen) p := by
  intro lines
  induction lines with
  | nil => intro p h; rfl
  | cons l ls ih =>
    intro p h
    obtain ⟨st, k⟩ := p
    rw [List.map_cons, List.foldl_cons, List.foldl_cons,
      importStep_eq_stepP gen st k l (h l (by simp))]
    exact ih _ (fun x hx => h x (by simp [hx]))

theorem idxOfNonTab_eq_none_iff :
    ∀ (l : List Char), idxOfNonTab l = none ↔ ∀ c ∈ l, c = '\t' := by
  intro l
  induction l with
  | nil => simp [idxOfNonTab]
  | cons c rest ih =>
    by_cases hc : c = '\t'
    · simp [idxOfNonTab, hc, ih]
    · simp [idxOfNonTab, hc]

theorem searchNonTab_nonneg {l : List Char} (h : trimL l ≠ []) : 0 ≤ searchNonTab l := by
  rw [searchNonTab]
  cases ho : idxOfNonTab l with
  | some n => simp
  | none =>
    exfalso
    apply h
    have hall : ∀ c ∈ l, c = '\t' := (idxOfNonTab_eq_none_iff l).mp ho
    have hws : l.dropWhile isJsWs = [] := by
      rw [List.dropWhile_eq_nil_iff]
      intro x hx
      rw [hall x hx]
      simp [isJsWs]
    rw [trimL, hws]
    simp

/-- The unconsumed rest a `parseSeqF` call returns is a suffix of its
input. -/
theorem parseSeqF_suffix (gen : Nat → String) :
    ∀ (fuel : Nat) (fd : Int) (k : Nat) (ps : List (Int × List Char)),
      (parseSeqF gen fuel fd k ps).2.1 <:+ ps
  | 0, fd, k, ps => by rw [parseSeqF]
  | fuel + 1, fd, k, [] => by rw [parseSeqF]
  | fuel + 1, fd, k, (d, c) :: t => by
    rw [parseSeqF]
    by_cases hd : fd < d
    · rw [if_pos hd]
      rcases h1 : parseSeqF gen fuel d (k + 1) t with ⟨kids, t1, k1⟩
      dsimp only
      rcases h2 : parseSeqF gen fuel fd k1 t1 with ⟨sibs, t2, k2⟩
      dsimp only
      have s1 : t1 <:+ t := by
        have := parseSeqF_suffix gen fuel d (k + 1) t
        rwa [h1] at this
      have s2 : t2 <:+ t1 := by
        have := parseSeqF_suffix gen fuel fd k1 t1
        rwa [h2] at this
      exact (s2.trans s1).trans (List.suffix_cons (d, c) t)
    · simp only [if_neg hd]
      exact List.suffix_refl _

/-- What a `parseSeqF` call leaves behind starts at a depth that no longer
exceeds the call's frame depth. -/
theorem parseSeqF_stop (gen : Nat → String) :
    ∀ (fuel : Nat) (fd : Int) (k : Nat) (ps : List (Int × List Char)),
      ps.length < fuel →
      ∀ d c t, (parseSeqF gen fuel fd k ps).2.1 = (d, c) :: t → d ≤ fd
  | 0, fd, k, ps => by intro h; omega
  | fuel + 1, fd, k, [] => by
    intro h d c t hcon
    rw [parseSeqF] at hcon
    cases hcon
  | fuel + 1, fd, k, (d0, c0) :: t0 => by
    intro h d c t heq
    rw [parseSeqF] at heq
    by_cases hd : fd < d0
    · rw [if_pos hd] at heq
      rcases h1 : parseSeqF gen fuel d0 (k + 1) t0 with ⟨kids, t1, k1⟩
      rcases h2 : parseSeqF gen fuel fd k1 t1 with ⟨sibs, t2, k2⟩
      rw [h1] at heq
      dsimp only at heq
      rw [h2] at heq
      dsimp only at heq
      have s1 : t1 <:+ t0 := by
        have := parseSeqF_suffix gen fuel d0 (k + 1) t0
        rwa [h1] at this
      have hlt1 : t1.length < fuel := by
        have := s1.length_le
        simp at h
        omega
      have := parseSeqF_stop gen fuel fd k1 t1 hlt1 d c t (by rw [h2]; exact heq)
      exact this
    · rw [if_neg hd] at heq
      cases heq
      omega

theorem stepP_congr (gen : Nat → String) {st1 st2 : List Frame} (k : Nat)
    (p : Int × List Char) (h : popWhile p.1 st1 = popWhile p.1 st2) :
    stepP gen (st1, k) p = stepP gen (st2, k) p := by
  obtain ⟨d, c⟩ := p
  rw [stepP, stepP]
  dsimp only at h
  rw [h]

/-- Retiring a frame commutes with the rest of the run, provided the next
line (if any) pops at least that frame. -/
theorem runP_collapse (gen : Nat → String) (d : Int) (x : List Node) (pd : Int)
    (y : List Node) (rest : List Frame) (k : Nat) (ps : List (Int × List Char))
    (h : ps = [] ∨ ∃ d' c t, ps = (d', c) :: t ∧ d' ≤ d) :
    runP gen ((d, x) :: (pd, y) :: rest) k ps =
      runP gen ((pd, attachFrame x y) :: rest) k ps := by
  rcases h with h | ⟨d', c, t, rfl, hd'⟩
  · subst h
    simp only [runP, List.foldl_nil]
    rw [collapseAll]
  · rw [runP, runP, List.foldl_cons, List.foldl_cons]
    have hpw : popWhile (d', c).1 ((d, x) :: (pd, y) :: rest)
        = popWhile (d', c).1 ((pd, attachFrame x y) :: rest) := by
      dsimp only
      rw [popWhile, if_pos hd']
    rw [stepP_congr gen k (d', c) hpw]

/-- The parent-stack machine computes exactly the recursive
nearest-smaller-depth descent: running the machine from a frame stack over
`ps` is running it over what `parseSeqF` leaves, with the parsed nodes
collected (reversed) in the top frame. -/
theorem runP_parseSeqF (gen : Nat → String) :
    ∀ (fuel : Nat) (ps : List (Int × List Char)) (fd : Int) (rc : List Node)
      (rest : List Frame) (k : Nat), ps.length < fuel →
      runP gen ((fd, rc) :: rest) k ps =
        runP gen ((fd, (parseSeqF gen fuel fd k ps).1.reverse ++ rc) :: rest)
          (parseSeqF gen fuel fd k ps).2.2 (parseSeqF gen fuel fd k ps).2.1
  | 0, ps, fd, rc, rest, k => by intro h; omega
  | fuel + 1, [], fd, rc, rest, k => by
    intro h
    rw [parseSeqF]
    dsimp only
    rw [List.reverse_nil, List.nil_append]
  | fuel + 1, (d, c) :: t, fd, rc, rest, k => by
    intro h
    by_cases hd : fd < d
    · have hlt : t.length < fuel := by simp at h; omega
      have hstep : stepP gen ((fd, rc) :: rest, k) (d, c) =
          ((d, ([] : List Node)) :: (fd, Node.mk (gen k) (String.mk c) [] :: rc) :: rest,
            k + 1) := by
        rw [stepP, popWhile_lt hd]
      have e0 : runP gen ((fd, rc) :: rest) k ((d, c) :: t) =
          runP gen ((d, ([] : List Node)) ::
            (fd, Node.mk (gen k) (String.mk c) [] :: rc) :: rest) (k + 1) t := by
        rw [runP, runP, List.foldl_cons, hstep]
      rcases h1 : parseSeqF gen fuel d (k + 1) t with ⟨kids, t1, k1⟩
      have hlt1 : t1.length < fuel := by
        have hs := parseSeqF_suffix gen fuel d (k + 1) t
        rw [h1] at hs
        dsimp only at hs
        have := hs.length_le
        omega
      have e1 := runP_parseSeqF gen fuel t d []
        ((fd, Node.mk (gen k) (String.mk c) [] :: rc) :: rest) (k + 1) hlt
      rw [h1] at e1
      dsimp only at e1
      rw [List.append_nil] at e1
      have hcond : t1 = [] ∨ ∃ d' c' t', t1 = (d', c') :: t' ∧ d' ≤ d := by
        cases t1 with
        | nil => exact Or.inl rfl
        | cons p tp =>
          obtain ⟨d', c'⟩ := p
          refine Or.inr ⟨d', c', tp, rfl, ?_⟩
          exact parseSeqF_stop gen fuel d (k + 1) t hlt d' c' tp (by rw [h1])
      have e2 := runP_collapse gen d kids.reverse fd
        (Node.mk (gen k) (String.mk c) [] :: rc) rest k1 t1 hcond
      have e3 : attachFrame kids.reverse (Node.mk (gen k) (String.mk c) [] :: rc) =
          Node.mk (gen k) (String.mk c) kids :: rc := by
        rw [attachFrame, List.reverse_reverse]
        rfl
      rw [e3] at e2
      rcases h2 : parseSeqF gen fuel fd k1 t1 with ⟨sibs, t2, k2⟩
      have e4 := runP_parseSeqF gen fuel t1 fd (Node.mk (gen k) (String.mk c) kids :: rc)
        rest k1 hlt1
      rw [h2] at e4
      dsimp only at e4
      rw [parseSeqF, if_pos hd, h1]
      dsimp only
      rw [h2]
      dsimp only
      rw [e0, e1, e2, e4]
      rw [List.reverse_cons, List.append_assoc]
      rfl
    · rw [parseSeqF, if_neg hd]
      dsimp only
      rw [List.reverse_nil, List.nil_append]

/-- The parent-stack import IS the nearest-smaller-depth reconstruction
described by the spec, on every input text. -/
theorem import_eq_buildNSA (gen : Nat → String) (txt : String) :
    importFromTxt gen txt = buildNSA gen txt := by
  rw [importFromTxt, buildNSA]
  set lines := (splitNl txt.data).filter (fun l => !(trimL l).isEmpty) with hlines
  set ps := lines.map (fun l => (searchNonTab l, trimL l)) with hps
  have hmem : ∀ l ∈ lines, trimL l ≠ [] := by
    intro l hl
    rw [hlines] at hl
    have := (List.mem_filter.mp hl).2
    simpa [List.isEmpty_iff] using this
  have h1 : lines.foldl (importStep gen) ([((-1 : Int), ([] : List Node))], 0)
      = ps.foldl (stepP gen) ([((-1 : Int), ([] : List Node))], 0) := by
    rw [hps]
    exact foldl_importStep_eq gen lines _ hmem
  have h2 := runP_parseSeqF gen (ps.length + 1) ps (-1) [] [] 0 (by omega)
  rcases hp : parseSeqF gen (ps.length + 1) (-1) 0 ps with ⟨ns, ps', k'⟩
  rw [hp] at h2
  dsimp only at h2
  have hps' : ps' = [] := by
    cases hq : ps' with
    | nil => rfl
    | cons p tp =>
      obtain ⟨d', c'⟩ := p
      have hstop := parseSeqF_stop gen (ps.length + 1) (-1) 0 ps (by omega) d' c' tp
        (by rw [hp, hq])
      have hsuf := parseSeqF_suffix gen (ps.length + 1) (-1) 0 ps
      rw [hp] at hsuf
      dsimp only at hsuf
      have hmemp : (d', c') ∈ ps := hsuf.subset (by rw [hq]; simp)
      have hge : 0 ≤ d' := by
        rw [hps] at hmemp
        obtain ⟨l, hl, he⟩ := List.mem_map.mp hmemp
        have hnn := searchNonTab_nonneg (hmem l hl)
        have hd' : searchNonTab l = d' := congrArg Prod.fst he
        omega
      omega
  subst hps'
  rw [runP, runP] at h2
  rw [h1, h2, List.foldl_nil, collapseAll]
  simp

/-- C9.  `importFromTxt` attaches each non-blank line's node as a child of
the node built from the nearest preceding line of strictly smaller
leading-tab count (or as a root when none exists) — the parent stack
seeded at depth −1, popping frames of depth ≥ the line's depth, computes
exactly the nearest-smaller-ancestor reconstruction; arbitrary depth jumps
are accepted, every text yields a forest. -/
theorem import_nsa_spec (gen : Nat → String) (txt : String) :
    importFromTxt gen txt = buildNSA gen txt :=
  import_eq_buildNSA gen txt

/-! ## The global never-empty invariant (C1) -/

theorem loadNotes_ne_nil (stored : Option (List Node)) (fresh : String) :
    loadNotes stored fresh ≠ [] := by
  rw [loadNotes.eq_def]
  dsimp only
  split
  · simp
  · rename_i h
    intro hcon
    rw [hcon] at h
    simp at h

theorem updateNoteContent_ne_nil (id c : String) (F : List Node) (hF : F ≠ []) :
    updateNoteContent id c F ≠ [] := by
  cases hf : findLoc id F with
  | none => rw [updateNoteContent, hf]; exact hF
  | some loc => rw [updateNoteContent, hf]; exact mapNodeAt_ne_nil _ F loc hF

theorem addNewSibling_ne_nil (id fresh : String) (F : List Node) (hF : F ≠ []) :
    addNewSibling id fresh F ≠ [] := by
  cases hf : findLoc id F with
  | none => rw [addNewSibling, hf]; exact hF
  | some loc =>
    rw [addNewSibling, hf]
    refine mapOwner_ne_nil _ F loc hF ?_
    intro s hs
    cases hidx : findIdxId id s with
    | none => simpa [hidx] using hs
    | some i => simp [hidx, insertAt]

theorem increaseNoteDepth_ne_nil (id : String) (F : List Node) (hF : F ≠ []) :
    increaseNoteDepth id F ≠ [] := by
  cases hf : findLoc id F with
  | none => rw [increaseNoteDepth, hf]; exact hF
  | some loc =>
    rw [increaseNoteDepth, hf]
    refine mapOwner_ne_nil _ F loc hF ?_
    intro s hs
    rw [indentSeq]
    cases hidx : findIdxId id s with
    | none => exact hs
    | some i =>
      dsimp only
      split
      · simp
      · exact hs

theorem deleteNote_ne_nil (id : String) (F : List Node) (hF : F ≠ []) :
    deleteNote id F ≠ [] := by
  cases hf : findLoc id F with
  | none => rw [deleteNote, hf]; exact hF
  | some loc =>
    match loc with
    | .here 0 =>
      rw [deleteNote, hf]
      exact mapNodeAt_ne_nil _ F (.here 0) hF
    | .here (i + 1) =>
      have hidx := findLoc_findIdx id F _ hf
      rw [ownerSeq, locIdx] at hidx
      rw [deleteNote_eq hf (by simp), mapOwner, deleteSeq_eq hidx]
      cases F with
      | nil => exact absurd rfl hF
      | cons a G => simp [List.take_succ_cons]
    | .child j sub =>
      rw [deleteNote_eq hf (by simp), mapOwner]
      intro hcon
      exact hF (by simpa using congrArg List.length hcon)

theorem outdentGo_ne_nil (id : String) (F : List Node) (loc : Loc) (hF : F ≠ []) :
    outdentGo id F loc ≠ [] := by
  match loc with
  | .here i => rw [outdentGo]; exact hF
  | .child j (.here i) =>
    rw [outdentGo]
    dsimp only
    cases hidx : findIdxId id (F.getD j default).children with
    | none => exact hF
    | some i' =>
      dsimp only
      cases hpi : findIdxId (F.getD j default).id
          (F.set j ((F.getD j default).withChildren
            ((F.getD j default).children.take i' ++
              (F.getD j default).children.drop (i' + 1)))) with
      | none => simp [insertAt]
      | some pi => simp [insertAt]
  | .child j (.child j' s') =>
    rw [outdentGo]
    case x_2 => intro i hcon; exact Loc.noConfusion hcon
    intro hcon
    exact hF (by simpa using congrArg List.length hcon)

theorem decreaseNoteDepth_ne_nil (id : String) (F : List Node) (hF : F ≠ []) :
    decreaseNoteDepth id F ≠ [] := by
  cases hf : findLoc id F with
  | none => rw [decreaseNoteDepth, hf]; exact hF
  | some loc =>
    match loc with
    | .here i =>
      rw [decreaseNoteDepth, hf]
      exact deleteNote_ne_nil id F hF
    | .child j sub =>
      rw [decreaseNoteDepth, hf]
      exact outdentGo_ne_nil id F _ hF

theorem importFromTxt_ne_nil (gen : Nat → String) (txt : String)
    (h : ∃ l ∈ splitNl txt.data, trimL l ≠ []) : importFromTxt gen txt ≠ [] := by
  rw [import_eq_buildNSA, buildNSA]
  set lines := (splitNl txt.data).filter (fun l => !(trimL l).isEmpty) with hlines
  set ps := lines.map (fun l => (searchNonTab l, trimL l)) with hps
  obtain ⟨l0, hl0, hnb⟩ := h
  have hlmem : l0 ∈ lines := by
    rw [hlines]
    exact List.mem_filter.mpr ⟨hl0, by simpa [List.isEmpty_iff] using hnb⟩
  cases hq : ps with
  | nil =>
    rw [hps, List.map_eq_nil_iff] at hq
    rw [hq] at hlmem
    simp at hlmem
  | cons p t =>
    obtain ⟨d, c⟩ := p
    have hmemp : (d, c) ∈ ps := by rw [hq]; simp
    have hge : 0 ≤ d := by
      rw [hps] at hmemp
      obtain ⟨l, hl, he⟩ := List.mem_map.mp hmemp
      have hnn : trimL l ≠ [] := by
        rw [hlines] at hl
        simpa [List.isEmpty_iff] using (List.mem_filter.mp hl).2
      have := searchNonTab_nonneg hnn
      have hd' : searchNonTab l = d := congrArg Prod.fst he
      omega
    have hlen : ((d, c) :: t).length + 1 = (t.length + 1) + 1 := by simp
    rw [hlen, parseSeqF, if_pos (by omega : (-1 : Int) < d)]
    rcases parseSeqF gen (t.length + 1) d 1 t with ⟨kids, t1, k1⟩
    rcases parseSeqF gen (t.length + 1) (-1) k1 t1 with ⟨sibs, t2, k2⟩
    simp

theorem applyOp_ne_nil (F : List Node) (op : Op) (hF : F ≠ []) (hok : opOk op) :
    applyOp F op ≠ [] := by
  cases op with
  | load st fresh => exact loadNotes_ne_nil st fresh
  | update id c => exact updateNoteContent_ne_nil id c F hF
  | insertAfter id fr => exact addNewSibling_ne_nil id fr F hF
  | indent id => exact increaseNoteDepth_ne_nil id F hF
  | outdent id => exact decreaseNoteDepth_ne_nil id F hF
  | delete id => exact deleteNote_ne_nil id F hF
  | importTxt gen txt => exact importFromTxt_ne_nil gen txt hok

theorem applyOps_ne_nil :
    ∀ (ops : List Op) (F : List Node), F ≠ [] → (∀ op ∈ ops, opOk op) →
      applyOps F ops ≠ []
  | [], F, hF, _ => hF
  | op :: ops, F, hF, hok => by
    rw [applyOps]
    exact applyOps_ne_nil ops _ (applyOp_ne_nil F op hF (hok op (by simp)))
      (fun o ho => hok o (by simp [ho]))

/-- Counterexample to C1 as frozen: importing a blank text empties the
forest — nothing re-synthesizes an empty root inside `importFromTxt`. -/
theorem forest_never_empty_cex :
    applyOps [Node.mk "a" "x" []] [Op.importTxt (fun _ => "i") ""] = [] := by
  rw [applyOps, applyOps, applyOp]
  simp [importFromTxt, splitNl, trimL, collapseAll]

/-- C1 (amended).  Starting from any nonempty forest, no sequence of core
operations in which every import's text has a non-blank line ever empties
the root sequence; and when a load would produce an empty forest, exactly
one empty-content root is synthesized; deleting the sole root only clears
its content, leaving exactly that root. -/
theorem forest_never_empty :
    (∀ fresh, loadNotes none fresh = [Node.mk fresh "" []]) ∧
    (∀ fresh, loadNotes (some []) fresh = [Node.mk fresh "" []]) ∧
    (∀ a : Node, deleteNote a.id [a] = [a.withContent ""]) ∧
    (∀ (F : List Node) (ops : List Op), F ≠ [] → (∀ op ∈ ops, opOk op) →
      applyOps F ops ≠ []) := by
  refine ⟨fun fresh => by rw [loadNotes.eq_def]; simp,
    fun fresh => by rw [loadNotes.eq_def]; simp,
    ?_, fun F ops hF hok => applyOps_ne_nil ops F hF hok⟩
  intro a
  cases a with
  | mk i c cs =>
    have hf : findLoc (Node.mk i c cs).id [Node.mk i c cs] = some (.here 0) := by
      rw [findLoc]
      simp [Node.id]
    rw [deleteNote, hf]
    simp [mapNodeAt]

/-- Witness for the amended C1: a load of nothing synthesizes one empty
root, and a short guarded operation sequence keeps the forest nonempty. -/
theorem forest_never_empty_witness :
    loadNotes none "r" = [Node.mk "r" "" []] ∧
    applyOps [Node.mk "a" "x" []]
      [Op.indent "a", Op.delete "a", Op.importTxt (fun _ => "i") "A"] ≠ [] := by
  refine ⟨forest_never_empty.1 "r", forest_never_empty.2.2.2 _ _ (by simp) ?_⟩
  intro op hop
  simp only [List.mem_cons, List.not_mem_nil, or_false] at hop
  rcases hop with rfl | rfl | rfl
  · exact trivial
  · exact trivial
  · refine ⟨['A'], ?_, ?_⟩
    · simp [splitNl]
    · simp [trimL, isJsWs]

/-! ## Round trip (C2): the machine inverts the flattening -/

theorem flattenPairs_cons (d : Nat) (n : Node) (rest : List Node) :
    flattenPairs d (n :: rest) =
      (d, n.content.data) :: (flattenPairs (d + 1) n.children ++ flattenPairs d rest) := by
  cases n
  rw [flattenPairs]
  simp [Node.content, Node.children]

theorem relabel_cons (gen : Nat → String) (k : Nat) (n : Node) (rest : List Node) :
    relabel gen k (n :: rest) =
      Node.mk (gen k) n.content (relabel gen (k + 1) n.children) ::
        relabel gen (k + 1 + countNodes n.children) rest := by
  cases n
  rw [relabel]
  simp [Node.content, Node.children]

theorem countNodes_cons (n : Node) (rest : List Node) :
    countNodes (n :: rest) = 1 + countNodes n.children + countNodes rest := by
  cases n
  rw [countNodes]
  simp [Node.children]

/-- Running the parent-stack machine over the flattened pairs of a forest
(at depths strictly below the stack top's) rebuilds exactly that forest,
relabelled with fresh ids, into the top frame. -/
theorem runP_flatten (gen : Nat → String) :
    ∀ (F : List Node) (d : Nat) (fd : Int) (rc : List Node) (rest : List Frame) (k : Nat)
      (more : List (Int × List Char)),
      fd < (d : Int) →
      (more = [] ∨ ∃ d' c' t', more = (d', c') :: t' ∧ d' ≤ (d : Int)) →
      runP gen ((fd, rc) :: rest) k
        ((flattenPairs d F).map (fun p => ((p.1 : Int), p.2)) ++ more) =
        runP gen ((fd, (relabel gen k F).reverse ++ rc) :: rest) (k + countNodes F) more
  | [], d, fd, rc, rest, k, more => by
    intro hfd hmore
    rw [flattenPairs, relabel, countNodes]
    simp
  | .mk i c cs :: rest', d, fd, rc, rest, k, more => by
    intro hfd hmore
    rw [flattenPairs_cons, List.map_cons, List.map_append, List.cons_append,
      List.append_assoc]
    simp only [Node.content, Node.children]
    have hstep : stepP gen ((fd, rc) :: rest, k) (((d : Nat) : Int), c.data) =
        (((d : Int), ([] : List Node)) ::
          (fd, Node.mk (gen k) (String.mk c.data) [] :: rc) :: rest, k + 1) := by
      rw [stepP, popWhile_lt hfd]
    have e0 : runP gen ((fd, rc) :: rest) k
        ((((d : Nat) : Int), c.data) ::
          ((flattenPairs (d + 1) cs).map (fun p => ((p.1 : Int), p.2)) ++
            ((flattenPairs d rest').map (fun p => ((p.1 : Int), p.2)) ++ more))) =
        runP gen (((d : Int), ([] : List Node)) ::
          (fd, Node.mk (gen k) (String.mk c.data) [] :: rc) :: rest) (k + 1)
          ((flattenPairs (d + 1) cs).map (fun p => ((p.1 : Int), p.2)) ++
            ((flattenPairs d rest').map (fun p => ((p.1 : Int), p.2)) ++ more)) := by
      rw [runP, runP, List.foldl_cons, hstep]
    have hmore1 : ((flattenPairs d rest').map (fun p => ((p.1 : Int), p.2)) ++ more) = []
        ∨ ∃ d' c' t', ((flattenPairs d rest').map (fun p => ((p.1 : Int), p.2)) ++ more)
          = (d', c') :: t' ∧ d' ≤ ((d : Nat) : Int) := by
      cases rest' with
      | nil =>
        rw [flattenPairs]
        simpa using hmore
      | cons x xs =>
        rw [flattenPairs_cons, List.map_cons, List.cons_append]
        exact Or.inr ⟨(d : Int), x.content.data, _, rfl, le_refl _⟩
    have hmore1' : ((flattenPairs d rest').map (fun p => ((p.1 : Int), p.2)) ++ more) = []
        ∨ ∃ d' c' t', ((flattenPairs d rest').map (fun p => ((p.1 : Int), p.2)) ++ more)
          = (d', c') :: t' ∧ d' ≤ (((d + 1 : Nat)) : Int) := by
      rcases hmore1 with h | ⟨d', c', t', he, hle⟩
      · exact Or.inl h
      · refine Or.inr ⟨d', c', t', he, ?_⟩
        push_cast
        push_cast at hle
        omega
    have ih1 := runP_flatten gen cs (d + 1) (d : Int) []
      ((fd, Node.mk (gen k) (String.mk c.data) [] :: rc) :: rest) (k + 1)
      ((flattenPairs d rest').map (fun p => ((p.1 : Int), p.2)) ++ more)
      (by push_cast; omega) hmore1' 
    rw [List.append_nil] at ih1
    have e2 := runP_collapse gen (d : Int) (relabel gen (k + 1) cs).reverse fd
      (Node.mk (gen k) (String.mk c.data) [] :: rc) rest (k + 1 + countNodes cs)
      ((flattenPairs d rest').map (fun p => ((p.1 : Int), p.2)) ++ more) hmore1
    have e3 : attachFrame (relabel gen (k + 1) cs).reverse
        (Node.mk (gen k) (String.mk c.data) [] :: rc) =
        Node.mk (gen k) c (relabel gen (k + 1) cs) :: rc := by
      rw [attachFrame, List.reverse_reverse]
      rfl
    rw [e3] at e2
    have ih2 := runP_flatten gen rest' d fd
      (Node.mk (gen k) c (relabel gen (k + 1) cs) :: rc) rest
      (k + 1 + countNodes cs) more hfd hmore
    rw [e0, ih1, e2, ih2, relabel_cons, countNodes_cons]
    simp only [Node.content, Node.children]
    have harith : k + 1 + countNodes cs + countNodes rest'
        = k + (1 + countNodes cs + countNodes rest') := by omega
    rw [harith]
    rw [List.reverse_cons, List.append_assoc, List.singleton_append]

/-! ## Round trip (C2): recovering the pairs from the exported text -/

theorem length_dropWhile_le (p : Char → Bool) :
    ∀ (l : List Char), (l.dropWhile p).length ≤ l.length := by
  intro l
  induction l with
  | nil => simp
  | cons a t ih =>
    by_cases h : p a
    · rw [List.dropWhile_cons_of_pos h]
      exact Nat.le_trans ih (by simp)
    · rw [List.dropWhile_cons_of_neg h]

theorem length_trimL_le (l : List Char) : (trimL l).length ≤ (l.dropWhile isJsWs).length := by
  rw [trimL, List.length_reverse]
  calc ((l.dropWhile isJsWs).reverse.dropWhile isJsWs).length
      ≤ (l.dropWhile isJsWs).reverse.length := length_dropWhile_le _ _
    _ = (l.dropWhile isJsWs).length := List.length_reverse _

/-- Unpack `goodContent` into the facts the codec proofs use. -/
theorem goodContent_spec {c : List Char} (h : goodContent c = true) :
    c ≠ [] ∧ c.dropWhile isJsWs = c ∧ c.reverse.dropWhile isJsWs = c.reverse ∧
      '\n' ∉ c ∧ '\t' ∉ c := by
  have h' : ((c ≠ [] ∧ trimL c = c) ∧ '\n' ∉ c) ∧ '\t' ∉ c := by
    simpa [goodContent, List.isEmpty_iff] using h
  obtain ⟨⟨⟨h0, ht⟩, hn⟩, htb⟩ := h'
  have hfront : c.dropWhile isJsWs = c := by
    rcases c with _ | ⟨a, t⟩
    · simp
    · by_cases hws : isJsWs a
      · exfalso
        have h1 : ((a :: t).dropWhile isJsWs).length ≤ t.length := by
          rw [List.dropWhile_cons_of_pos hws]
          exact length_dropWhile_le _ _
        have h2 : (trimL (a :: t)).length ≤ ((a :: t).dropWhile isJsWs).length :=
          length_trimL_le _
        rw [ht] at h2
        simp at h2
        omega
      · exact List.dropWhile_cons_of_neg hws
  have hback : c.reverse.dropWhile isJsWs = c.reverse := by
    have ht2 : trimL c = c := ht
    rw [trimL, hfront] at ht2
    have := congrArg List.reverse ht2
    rwa [List.reverse_reverse] at this
  exact ⟨h0, hfront, hback, hn, htb⟩

theorem dropWhile_replicate_tab (d : Nat) (l : List Char) :
    (List.replicate d '\t' ++ l).dropWhile isJsWs = l.dropWhile isJsWs := by
  induction d with
  | zero => simp
  | succ n ih =>
    rw [List.replicate_succ, List.cons_append,
      List.dropWhile_cons_of_pos (by simp [isJsWs])]
    exact ih

/-- Trimming an exported line recovers the (trimmed, nonempty) content. -/
theorem trimL_line {c : List Char} (d : Nat)
    (hf : c.dropWhile isJsWs = c) (hb : c.reverse.dropWhile isJsWs = c.reverse) :
    trimL (List.replicate d '\t' ++ c) = c := by
  rw [trimL, dropWhile_replicate_tab, hf, hb, List.reverse_reverse]

theorem head_not_ws {a : Char} {t : List Char}
    (hf : (a :: t : List Char).dropWhile isJsWs = a :: t) : isJsWs a = false := by
  by_cases h : isJsWs a
  · rw [List.dropWhile_cons_of_pos h] at hf
    have := length_dropWhile_le isJsWs t
    rw [hf] at this
    simp at this
  · simpa using h

theorem idxOfNonTab_line {c : List Char} (d : Nat) (h0 : c ≠ [])
    (hf : c.dropWhile isJsWs = c) :
    idxOfNonTab (List.replicate d '\t' ++ c) = some d := by
  induction d with
  | zero =>
    rcases c with _ | ⟨a, t⟩
    · exact absurd rfl h0
    · have hws := head_not_ws hf
      have : ¬ a = '\t' := by
        intro he
        rw [he] at hws
        simp [isJsWs] at hws
      simp [idxOfNonTab, this]
  | succ n ih =>
    rw [List.replicate_succ, List.cons_append, idxOfNonTab, if_pos rfl, ih]
    rfl

/-- The leading-tab count of an exported line is the node's depth. -/
theorem searchNonTab_line {c : List Char} (d : Nat) (h0 : c ≠ [])
    (hf : c.dropWhile isJsWs = c) :
    searchNonTab (List.replicate d '\t' ++ c) = (d : Int) := by
  rw [searchNonTab, idxOfNonTab_line d h0 hf]

theorem splitNl_no_nl {a : List Char} (ha : '\n' ∉ a) : splitNl a = [a] := by
  induction a with
  | nil => rw [splitNl]
  | cons c t ih =>
    have hc : ¬ c = '\n' := fun he => ha (he ▸ List.mem_cons_self c t)
    rw [splitNl, if_neg hc, ih (fun hm => ha (List.mem_cons_of_mem c hm))]

theorem splitNl_append (a b : List Char) (ha : '\n' ∉ a) :
    splitNl (a ++ '\n' :: b) = a :: splitNl b := by
  induction a with
  | nil => rw [List.nil_append, splitNl, if_pos rfl]
  | cons c t ih =>
    have hc : ¬ c = '\n' := fun he => ha (he ▸ List.mem_cons_self c t)
    rw [List.cons_append, splitNl, if_neg hc, ih (fun hm => ha (List.mem_cons_of_mem c hm))]

theorem interNl_ne_nil :
    ∀ (ls : List (List Char)), ls ≠ [] → (∀ l ∈ ls, l ≠ []) → interNl ls ≠ []
  | [], h, _ => absurd rfl h
  | [l], _, hall => by
    rw [interNl]
    exact hall l (by simp)
  | l :: m :: ls, _, hall => by
    rw [interNl]
    rcases hl : l with _ | ⟨x, t⟩
    · exact absurd hl (hall l (by simp))
    · simp

theorem flatten_lines_eq_interNl :
    ∀ (ls : List (List Char)), ls ≠ [] →
      (ls.map (fun l => l ++ ['\n'])).flatten = interNl ls ++ ['\n']
  | [], h => absurd rfl h
  | [l], _ => by
    rw [interNl]
    simp
  | l :: m :: ls, _ => by
    rw [List.map_cons, List.flatten_cons, flatten_lines_eq_interNl (m :: ls) (by simp)]
    conv_rhs => rw [interNl]
    simp

theorem dropWhile_reverse_interNl :
    ∀ (ls : List (List Char)), ls ≠ [] →
      (∀ l ∈ ls, l ≠ [] ∧ l.reverse.dropWhile isJsWs = l.reverse) →
      (interNl ls).reverse.dropWhile isJsWs = (interNl ls).reverse
  | [], h, _ => absurd rfl h
  | [l], _, hall => by
    rw [interNl]
    exact (hall l (by simp)).2
  | l :: m :: ls, _, hall => by
    rw [interNl]
    have ihne : interNl (m :: ls) ≠ [] :=
      interNl_ne_nil (m :: ls) (by simp) (fun x hx => (hall x (by simp [hx])).1)
    have ih : (interNl (m :: ls)).reverse.dropWhile isJsWs = (interNl (m :: ls)).reverse :=
      dropWhile_reverse_interNl (m :: ls) (by simp)
        (fun x hx => hall x (by simp [hx]))
    rcases hrev : (interNl (m :: ls)).reverse with _ | ⟨a, ta⟩
    · exact absurd (by simpa using congrArg List.length hrev) (fun hcon =>
        ihne (List.length_eq_zero.mp hcon))
    · have hws : isJsWs a = false := head_not_ws (hrev ▸ ih)
      rw [List.reverse_append, List.reverse_cons, List.append_assoc, hrev]
      rw [List.cons_append]
      rw [List.dropWhile_cons_of_neg (by simp [hws])]

theorem flattenPairs_ok :
    ∀ (F : List Node) (d : Nat), contentOk F →
      ∀ p ∈ flattenPairs d F, goodContent p.2 = true
  | [], d, _, p, hp => by
    rw [flattenPairs] at hp
    exact absurd hp (List.not_mem_nil p)
  | .mk i c cs :: rest, d, hok, p, hp => by
    rw [contentOk] at hok
    have hok' : goodContent c.data = true ∧ contentOk cs ∧ contentOk rest := hok
    rw [flattenPairs_cons] at hp
    rcases List.mem_cons.mp hp with he | hm
    · rw [he]
      exact hok'.1
    · rcases List.mem_append.mp hm with h | h
      · exact flattenPairs_ok cs (d + 1) hok'.2.1 p h
      · exact flattenPairs_ok rest d hok'.2.2 p h

theorem traverseExport_eq :
    ∀ (F : List Node) (d : Nat),
      traverseExport d F =
        ((flattenPairs d F).map
          (fun p => (List.replicate p.1 '\t' ++ p.2) ++ ['\n'])).flatten
  | [], d => by
    rw [traverseExport, flattenPairs]
    simp
  | .mk i c cs :: rest, d => by
    rw [traverseExport, flattenPairs_cons, List.map_cons, List.flatten_cons]
    dsimp only [Node.content, Node.children]
    rw [List.map_append, List.flatten_append,
      ← traverseExport_eq cs (d + 1), ← traverseExport_eq rest d]
    have hif : (if cs.length > 0 then traverseExport (d + 1) cs else []) =
        traverseExport (d + 1) cs := by
      rcases cs with _ | ⟨n, ns⟩
      · rw [traverseExport]
        simp
      · rw [if_pos (by simp)]
    rw [hif]
    simp [List.append_assoc]

/-- The properties of one exported line `dᵗᵃᵇc`: nonempty, right-trimmed,
trims back to `c`, leading-tab count `d`, no newline. -/
theorem line_facts {c : List Char} (d : Nat) (h : goodContent c = true) :
    List.replicate d '\t' ++ c ≠ [] ∧
      (List.replicate d '\t' ++ c).reverse.dropWhile isJsWs =
        (List.replicate d '\t' ++ c).reverse ∧
      trimL (List.replicate d '\t' ++ c) = c ∧
      searchNonTab (List.replicate d '\t' ++ c) = (d : Int) ∧
      '\n' ∉ List.replicate d '\t' ++ c := by
  obtain ⟨h0, hf, hb, hn, htb⟩ := goodContent_spec h
  refine ⟨?_, ?_, trimL_line d hf hb, searchNonTab_line d h0 hf, ?_⟩
  · intro hcon
    exact h0 (by simpa using (List.append_eq_nil.mp hcon).2)
  · obtain ⟨b, u, hbu⟩ : ∃ b u, c.reverse = b :: u := by
      rcases hcr : c.reverse with _ | ⟨b, u⟩
      · exact absurd (by simpa using congrArg List.reverse hcr) h0
      · exact ⟨b, u, rfl⟩
    have hwsb : isJsWs b = false := head_not_ws (hbu ▸ hb)
    rw [List.reverse_append, List.reverse_replicate, hbu, List.cons_append,
      List.dropWhile_cons_of_neg (by simp [hwsb])]
  · intro hmem
    rcases List.mem_append.mp hmem with hm | hm
    · have := List.eq_of_mem_replicate hm
      simp at this
    · exact hn hm

/-- `txt.trim()` of the export body: the final newline and nothing else is
removed, because the first line starts and every line ends with a
non-whitespace character. -/
theorem trimL_export (l0 : List Char) (ls : List (List Char))
    (h0 : l0.dropWhile isJsWs = l0)
    (hall : ∀ l ∈ (l0 :: ls), l ≠ [] ∧ l.reverse.dropWhile isJsWs = l.reverse) :
    trimL (interNl (l0 :: ls) ++ ['\n']) = interNl (l0 :: ls) := by
  have h0ne : l0 ≠ [] := (hall l0 (by simp)).1
  obtain ⟨a, t, hat⟩ : ∃ a t, l0 = a :: t := by
    rcases l0 with _ | ⟨a, t⟩
    · exact absurd rfl h0ne
    · exact ⟨a, t, rfl⟩
  have hws : isJsWs a = false := head_not_ws (hat ▸ h0)
  have hback := dropWhile_reverse_interNl (l0 :: ls) (by simp) hall
  obtain ⟨r, hr⟩ : ∃ r, interNl (l0 :: ls) = a :: r := by
    rcases ls with _ | ⟨m, ms⟩
    · exact ⟨t, by rw [interNl, hat]⟩
    · exact ⟨t ++ '\n' :: interNl (m :: ms), by rw [interNl, hat, List.cons_append]⟩
  have hfront : (interNl (l0 :: ls) ++ ['\n']).dropWhile isJsWs =
      interNl (l0 :: ls) ++ ['\n'] := by
    rw [hr, List.cons_append, List.dropWhile_cons_of_neg (by simp [hws]),
      ← List.cons_append, ← hr]
  rw [trimL, hfront, List.reverse_append]
  have hnl : (['\n'] : List Char).reverse = ['\n'] := by simp
  rw [hnl, List.singleton_append,
    List.dropWhile_cons_of_pos (by simp [isJsWs]), hback, List.reverse_reverse]

/-- Splitting the separator-joined lines on newlines recovers the lines. -/
theorem splitNl_interNl :
    ∀ (ls : List (List Char)), ls ≠ [] → (∀ l ∈ ls, '\n' ∉ l) →
      splitNl (interNl ls) = ls
  | [], h, _ => absurd rfl h
  | [l], _, hall => by
    rw [interNl]
    exact splitNl_no_nl (hall l (by simp))
  | l :: m :: ls, _, hall => by
    rw [interNl, splitNl_append l _ (hall l (by simp)),
      splitNl_interNl (m :: ls) (by simp) (fun x hx => hall x (by simp [hx]))]

/-- Re-labelling every id leaves the id-erased forest unchanged. -/
theorem stripIds_relabel (gen : Nat → String) :
    ∀ (F : List Node) (k : Nat), stripIds (relabel gen k F) = stripIds F
  | [], k => by rw [relabel]
  | .mk i c cs :: rest, k => by
    rw [relabel, stripIds, stripIds,
      stripIds_relabel gen cs (k + 1),
      stripIds_relabel gen rest (k + 1 + countNodes cs)]

/-- The round trip through the text codec relabels the forest in pre-order
with fresh ids and changes nothing else, for any nonempty forest all of
whose contents are nonempty, trimmed, and free of tabs and newlines. -/
theorem importFromTxt_export (gen : Nat → String) (N : Node) (rest : List Node)
    (hok : contentOk (N :: rest)) :
    importFromTxt gen (exportToTxt (N :: rest)) = relabel gen 0 (N :: rest) := by
  obtain ⟨i, c, cs⟩ := N
  have hok' : goodContent c.data = true ∧ contentOk cs ∧ contentOk rest := by
    rw [contentOk] at hok
    exact hok
  have hgoodAll : ∀ p ∈ flattenPairs 0 (Node.mk i c cs :: rest), goodContent p.2 = true :=
    flattenPairs_ok _ 0 hok
  have hpsc := flattenPairs_cons 0 (Node.mk i c cs) rest
  simp only [Node.content, Node.children] at hpsc
  have htail0 : (flattenPairs 0 (Node.mk i c cs :: rest)).map
        (fun p => List.replicate p.1 '\t' ++ p.2) =
      c.data :: ((flattenPairs (0 + 1) cs ++ flattenPairs 0 rest).map
        (fun p => List.replicate p.1 '\t' ++ p.2)) := by
    rw [hpsc, List.map_cons]
    simp
  obtain ⟨tail, htail⟩ :
      ∃ t, (flattenPairs 0 (Node.mk i c cs :: rest)).map
        (fun p => List.replicate p.1 '\t' ++ p.2) = c.data :: t :=
    ⟨_, htail0⟩
  have hmemL : ∀ l ∈ c.data :: tail,
      ∃ p ∈ flattenPairs 0 (Node.mk i c cs :: rest),
        l = List.replicate p.1 '\t' ++ p.2 := by
    intro l hl
    rw [← htail] at hl
    obtain ⟨p, hp, he⟩ := List.mem_map.mp hl
    exact ⟨p, hp, he.symm⟩
  have hfacts : ∀ l ∈ c.data :: tail,
      l ≠ [] ∧ l.reverse.dropWhile isJsWs = l.reverse ∧ trimL l ≠ [] ∧ '\n' ∉ l := by
    intro l hl
    obtain ⟨p, hp, rfl⟩ := hmemL l hl
    have hg := hgoodAll p hp
    obtain ⟨hne', hbk, htr, hsr, hnl⟩ := line_facts p.1 hg
    refine ⟨hne', hbk, ?_, hnl⟩
    rw [htr]
    exact (goodContent_spec hg).1
  have h0 : (c.data).dropWhile isJsWs = c.data := (goodContent_spec hok'.1).2.1
  rw [exportToTxt, traverseExport_eq]
  have hmm : (flattenPairs 0 (Node.mk i c cs :: rest)).map
        (fun p => (List.replicate p.1 '\t' ++ p.2) ++ ['\n'])
      = ((flattenPairs 0 (Node.mk i c cs :: rest)).map
          (fun p => List.replicate p.1 '\t' ++ p.2)).map (fun l => l ++ ['\n']) := by
    rw [List.map_map]
    rfl
  rw [hmm, htail, flatten_lines_eq_interNl (c.data :: tail) (by simp),
    trimL_export c.data tail h0 (fun l hl => ⟨(hfacts l hl).1, (hfacts l hl).2.1⟩)]
  rw [importFromTxt]
  dsimp only
  rw [splitNl_interNl (c.data :: tail) (by simp) (fun l hl => (hfacts l hl).2.2.2),
    List.filter_eq_self.mpr
      (fun l hl => by simpa [List.isEmpty_iff] using (hfacts l hl).2.2.1),
    foldl_importStep_eq gen (c.data :: tail) _ (fun l hl => (hfacts l hl).2.2.1)]
  have hmapx : (c.data :: tail).map (fun l => (searchNonTab l, trimL l)) =
      (flattenPairs 0 (Node.mk i c cs :: rest)).map (fun p => ((p.1 : Int), p.2)) := by
    rw [← htail, List.map_map]
    refine List.map_congr_left ?_
    intro p hp
    have hg := hgoodAll p hp
    obtain ⟨hne', hbk, htr, hsr, hnl⟩ := line_facts p.1 hg
    simp only [Function.comp]
    rw [hsr, htr]
  rw [hmapx]
  have hrun := runP_flatten gen (Node.mk i c cs :: rest) 0 (-1) [] [] 0 []
    (by norm_num) (Or.inl rfl)
  simp only [List.append_nil] at hrun
  show runP gen [((-1 : Int), ([] : List Node))] 0
      ((flattenPairs 0 (Node.mk i c cs :: rest)).map (fun p => ((p.1 : Int), p.2))) =
    relabel gen 0 (Node.mk i c cs :: rest)
  rw [hrun, runP, List.foldl_nil, collapseAll, List.reverse_reverse]

/-- C2 (amended).  For every forest whose node contents are all nonempty,
trimmed, and free of tab and newline characters, importing the text
produced by exporting the forest yields a forest that is structurally
equal and content-equal to the original, node ids excluded. -/
theorem roundtrip_spec (gen : Nat → String) (F : List Node) (hok : contentOk F) :
    stripIds (importFromTxt gen (exportToTxt F)) = stripIds F := by
  rcases F with _ | ⟨N, rest⟩
  · simp [exportToTxt, traverseExport, trimL, importFromTxt, splitNl, collapseAll,
      stripIds]
  · rw [importFromTxt_export gen N rest hok, stripIds_relabel]

/-- C2, counterexample to the claim as stated: a forest whose contents
contain no tab and no newline (a single root with empty content) fails
the round trip — the export is blank text, so the import is the empty
forest and even the node count differs. -/
theorem roundtrip_cex :
    ('\t' ∉ ("" : String).data ∧ '\n' ∉ ("" : String).data) ∧
      stripIds (importFromTxt (fun _ => "x") (exportToTxt [Node.mk "a" "" []])) ≠
        stripIds [Node.mk "a" "" []] := by
  refine ⟨by simp, ?_⟩
  have h1 : exportToTxt [Node.mk "a" "" []] = String.mk [] := by
    simp [exportToTxt, traverseExport, trimL, isJsWs]
  have h2 : importFromTxt (fun _ => "x") (String.mk []) = [] := by
    simp [importFromTxt, splitNl, trimL, collapseAll]
  rw [h1, h2]
  simp [stripIds]

/-- C2, witness: the amended round trip at a concrete two-node forest. -/
theorem roundtrip_spec_witness :
    contentOk [Node.mk "a" "x" [Node.mk "b" "y" []]] ∧
      stripIds (importFromTxt (fun _ => "n")
          (exportToTxt [Node.mk "a" "x" [Node.mk "b" "y" []]])) =
        stripIds [Node.mk "a" "x" [Node.mk "b" "y" []]] := by
  have hco : contentOk [Node.mk "a" "x" [Node.mk "b" "y" []]] := by
    simp [contentOk, goodContent, trimL, isJsWs]
  exact ⟨hco, roundtrip_spec (fun _ => "n") _ hco⟩
